import Mathlib

/-!
# Verification of the AI-Resume-Builder text pipeline (`utils.py`)

A shallow embedding in Lean 4 of the pure text-processing core of the
repository: the section parser `format_output`, the heuristic scorer
`evaluate_resume`, the gap-analysis response parser of `analyze_jd`, the
PDF body line classifier of `_body`, and the Latin-1 transliterator `_s`.

Strings are modelled as `List Char`.  Python's regular-expression
operations are specialised to the concrete patterns appearing in the
source and implemented as executable scanning functions whose
greedy/backtracking behaviour mirrors the Python `re` engine on those
patterns.  Integer arithmetic on scores is modelled exactly (Python's
`int((a/b)*k)` on the nonnegative quantities involved is `a*k/b` in `Nat`).
-/

namespace ResumeBuilder

/-! ## Basic character classes and Python string primitives -/

/-- Python regex `[ \t]` (the indentation class used by the marker pattern). -/
def isSpaceTab (c : Char) : Bool := c = ' ' || c = '\t'

/-- Python regex `\s` / `str.strip` whitespace over ASCII:
space, tab, newline, carriage return, vertical tab, form feed. -/
def isPySpace (c : Char) : Bool :=
  c = ' ' || c = '\t' || c = '\n' || c = '\r' || c = '\x0b' || c = '\x0c'

/-- Python regex `\w` over ASCII: letters, digits, underscore. -/
def isWordChar (c : Char) : Bool :=
  (('a' ≤ c && c ≤ 'z') || ('A' ≤ c && c ≤ 'Z') || ('0' ≤ c && c ≤ '9')) || c = '_'

/-- `str.strip()`: drop whitespace from both ends. -/
def pyStrip (cs : List Char) : List Char :=
  ((cs.dropWhile isPySpace).reverse.dropWhile isPySpace).reverse

/-- `str.lower()` (ASCII). -/
def pyLower (cs : List Char) : List Char := cs.map Char.toLower

/-- `str.upper()` (ASCII). -/
def pyUpper (cs : List Char) : List Char := cs.map Char.toUpper

/-- `str.split(sep)` for a one-character separator (used with `","`). -/
def splitChar (sep : Char) : List Char → List (List Char)
  | [] => [[]]
  | c :: cs =>
    if c = sep then [] :: splitChar sep cs
    else
      match splitChar sep cs with
      | l :: ls => (c :: l) :: ls
      | [] => [[c]]

/-- `str.splitlines()` restricted to `\n` boundaries (the only line
boundary produced by the texts this pipeline handles). -/
def pyLines (cs : List Char) : List (List Char) := splitChar '\n' cs

/-- `str.split()` with no argument: maximal runs of non-whitespace.
Fuel-driven so that it reduces in the kernel; the callers pass
`length + 1` fuel, which is always sufficient. -/
def pySplitWsAux : Nat → List Char → List (List Char)
  | 0, _ => []
  | _ + 1, [] => []
  | fuel + 1, c :: cs =>
    if isPySpace c then pySplitWsAux fuel cs
    else (c :: cs.takeWhile (fun d => !isPySpace d)) ::
      pySplitWsAux fuel (cs.dropWhile (fun d => !isPySpace d))

def pySplitWs (cs : List Char) : List (List Char) := pySplitWsAux (cs.length + 1) cs

/-- `re.findall(r"\b\w+\b", ...)`-style maximal `\w+` runs. -/
def findallWAux : Nat → List Char → List (List Char)
  | 0, _ => []
  | _ + 1, [] => []
  | fuel + 1, c :: cs =>
    if isWordChar c then
      (c :: cs.takeWhile isWordChar) :: findallWAux fuel (cs.dropWhile isWordChar)
    else findallWAux fuel cs

def findallW (cs : List Char) : List (List Char) := findallWAux (cs.length + 1) cs

/-- `needle in haystack` (substring test). -/
def containsSub (p : List Char) : List Char → Bool
  | [] => p.isEmpty
  | c :: cs => p.isPrefixOf (c :: cs) || containsSub p cs

/-- `re.search(r"\b" + w + r"\b", text)` for a pattern `w` consisting of
word characters: `w` occurs with non-word characters (or the ends of the
text) on both sides.  `prev` is the character just before the current
scan position. -/
def boundaryOk : Option Char → Bool
  | none => true
  | some c => !isWordChar c

def wordSearchAux (w : List Char) : Option Char → List Char → Bool
  | prev, [] => boundaryOk prev && w.isPrefixOf [] && true
  | prev, c :: cs =>
    (boundaryOk prev && w.isPrefixOf (c :: cs) &&
      boundaryOk (((c :: cs).drop w.length).head?)) ||
    wordSearchAux w (some c) cs

def wordSearch (w : List Char) (cs : List Char) : Bool := wordSearchAux w none cs

/-! ## `format_output.strip_md`: the five sequential `re.sub` passes

* `re.sub(r"\*\*(.+?)\*\*", r"\1", text)`
* `re.sub(r"\*(.+?)\*",     r"\1", text)`
* `re.sub(r"__(.+?)__",     r"\1", text)`
* `re.sub(r"^#{1,6}\s+",    "",    text, flags=re.MULTILINE)`
* `re.sub(r"^\s*[•]\s",     "  - ", text, flags=re.MULTILINE)`

Each pass scans left to right; on a match the replacement is emitted and
scanning resumes after the matched span of the original text.  `.`
does not match a newline (no DOTALL flag), `(.+?)` is non-greedy. -/

/-- Matches `(.+?)dd` (non-greedy body, then the two-character closing
delimiter `dd`): returns the shortest nonempty newline-free body followed
by the closer, with the remainder after the closer. -/
def closeD2 (d : Char) : List Char → Option (List Char × List Char)
  | c1 :: c2 :: c3 :: cs =>
    if c1 = '\n' then none
    else if c2 = d && c3 = d then some ([c1], cs)
    else (closeD2 d (c2 :: c3 :: cs)).map (fun r => (c1 :: r.1, r.2))
  | _ => none

/-- Matches `(.+?)d` for a one-character closing delimiter. -/
def closeD1 (d : Char) : List Char → Option (List Char × List Char)
  | c1 :: c2 :: cs =>
    if c1 = '\n' then none
    else if c2 = d then some ([c1], cs)
    else (closeD1 d (c2 :: cs)).map (fun r => (c1 :: r.1, r.2))
  | _ => none

/-- `re.sub(r"dd(.+?)dd", r"\1", text)` for a doubled delimiter `d`
(`**…**` and `__…__`). -/
def subDouble (d : Char) : Nat → List Char → List Char
  | 0, cs => cs
  | _ + 1, [] => []
  | fuel + 1, c :: cs =>
    if c = d then
      match cs with
      | c2 :: cs2 =>
        if c2 = d then
          match closeD2 d cs2 with
          | some (content, rest) => content ++ subDouble d fuel rest
          | none => c :: subDouble d fuel cs
        else c :: subDouble d fuel cs
      | [] => [c]
    else c :: subDouble d fuel cs

/-- `re.sub(r"d(.+?)d", r"\1", text)` for a single delimiter `d` (`*…*`). -/
def subSingle (d : Char) : Nat → List Char → List Char
  | 0, cs => cs
  | _ + 1, [] => []
  | fuel + 1, c :: cs =>
    if c = d then
      match closeD1 d cs with
      | some (content, rest) => content ++ subSingle d fuel rest
      | none => c :: subSingle d fuel cs
    else c :: subSingle d fuel cs

/-- `re.sub(r"^#{1,6}\s+", "", text, flags=re.MULTILINE)`.  The Boolean
argument tracks whether the scan position is at the start of a line. -/
def subHash : Nat → List Char → Bool → List Char
  | 0, cs, _ => cs
  | _ + 1, [], _ => []
  | fuel + 1, c :: cs, b =>
    if b && c = '#' then
      let k := (List.takeWhile (fun d => d = '#') (c :: cs)).length
      let after := List.dropWhile (fun d => d = '#') (c :: cs)
      if k ≤ 6 && after.head?.any isPySpace then
        let ws := after.takeWhile isPySpace
        subHash fuel (after.dropWhile isPySpace) (ws.getLast?.any (fun d => d = '\n'))
      else c :: subHash fuel cs false
    else c :: subHash fuel cs (c = '\n')

/-- `re.sub(r"^\s*[•]\s", "  - ", text, flags=re.MULTILINE)`. -/
def subBullet : Nat → List Char → Bool → List Char
  | 0, cs, _ => cs
  | _ + 1, [], _ => []
  | fuel + 1, c :: cs, b =>
    if b then
      match List.dropWhile isPySpace (c :: cs) with
      | '•' :: s :: rest2 =>
        if isPySpace s then "  - ".data ++ subBullet fuel rest2 (s = '\n')
        else c :: subBullet fuel cs (c = '\n')
      | _ => c :: subBullet fuel cs (c = '\n')
    else c :: subBullet fuel cs (c = '\n')

/-- `strip_md` from `format_output`: the five passes in source order. -/
def strip_md (cs : List Char) : List Char :=
  let t1 := subDouble '*' (cs.length + 1) cs
  let t2 := subSingle '*' (t1.length + 1) t1
  let t3 := subDouble '_' (t2.length + 1) t2
  let t4 := subHash (t3.length + 1) t3 true
  subBullet (t4.length + 1) t4 true

/-! ## The section-marker pattern and `re.split`

`format_output` splits on
`(?im)^[ \t]*(?:#+\s*)?(?:\*{1,2})?(SUMMARY|RESUME|COVER LETTER)(?:\*{1,2})?[ \t]*:?\s*$`
with one capture group, so `re.split` interleaves captured markers with
the surrounding text.  The matcher below realises exactly this pattern's
backtracking behaviour:

* `[ \t]*`, `#+`, and the `\s*` inside the optional heading group are
  effectively possessive here because the character that must follow
  each of them can never extend the repeated class;
* `(?:\*{1,2})?` succeeds exactly when the number of consecutive stars
  present is at most 2 (a shorter take always leaves a star where a
  letter, colon, or line end is required);
* the trailing `\s*$` greedily consumes whitespace and then backtracks
  to the last position that is the end of input or is followed by `\n`.
-/

/-- Case-insensitive match of the (lowercase) pattern `p` against the
front of `cs`; returns the original matched characters and the rest. -/
def matchCI : List Char → List Char → Option (List Char × List Char)
  | [], cs => some ([], cs)
  | _ :: _, [] => none
  | p :: ps, c :: cs =>
    if c.toLower = p then (matchCI ps cs).map (fun r => (c :: r.1, r.2)) else none

/-- The alternation `SUMMARY|RESUME|COVER LETTER`, case-insensitively. -/
def matchMarkerWord (cs : List Char) : Option (List Char × List Char) :=
  match matchCI "summary".data cs with
  | some r => some r
  | none =>
    match matchCI "resume".data cs with
    | some r => some r
    | none => matchCI "cover letter".data cs

/-- `\s*$` in multiline mode: greedily consume whitespace, ending at the
end of input or just before a `\n`; returns the unconsumed remainder
(which is therefore `[]` or starts with `\n`). -/
def wsDollar : List Char → Option (List Char)
  | [] => some []
  | c :: cs =>
    if isPySpace c then
      match wsDollar cs with
      | some r => some r
      | none => if c = '\n' then some (c :: cs) else none
    else none

/-- The optional heading group `(?:#+\s*)?`: committed when a `#` is
present (backtracking cannot help, since every shorter take leaves a
character that can start neither the star group nor a marker word). -/
def hashStrip (cs1 : List Char) : List Char :=
  if cs1.head? = some '#' then (cs1.dropWhile (fun d => d = '#')).dropWhile isPySpace
  else cs1

/-- `(?:\*{1,2})?[ \t]*:?\s*$` after the marker word. -/
def matchTail (cs4 : List Char) : Option (List Char) :=
  let m := (cs4.takeWhile (fun d => d = '*')).length
  if 2 < m then none
  else
    let cs5 := (cs4.drop m).dropWhile isSpaceTab
    let cs6 := if cs5.head? = some ':' then cs5.tail else cs5
    wsDollar cs6

/-- `(?:\*{1,2})?(SUMMARY|RESUME|COVER LETTER)` followed by the tail. -/
def matchCore (cs2 : List Char) : Option (List Char × List Char) :=
  let n := (cs2.takeWhile (fun d => d = '*')).length
  if 2 < n then none
  else
    match matchMarkerWord (cs2.drop n) with
    | none => none
    | some (cap, cs4) =>
      match matchTail cs4 with
      | none => none
      | some rest => some (cap, rest)

/-- Attempt the whole marker pattern at a line-start position.  On
success returns the captured marker text (group 1) and the remainder
after the full match. -/
def matchAt (cs0 : List Char) : Option (List Char × List Char) :=
  matchCore (hashStrip (cs0.dropWhile isSpaceTab))

/-- Scan for the leftmost marker match.  `b` records whether the current
position is at the start of a line (`^` with `re.MULTILINE`).  Returns
`(text before the match, captured marker, remainder after the match)`. -/
def findMarker : List Char → Bool → Option (List Char × List Char × List Char)
  | [], b => if b then (matchAt []).map (fun r => ([], r)) else none
  | c :: cs, b =>
    match (if b then matchAt (c :: cs) else none) with
    | some r => some ([], r)
    | none => (findMarker cs (c = '\n')).map (fun r => (c :: r.1, r.2))

/-- `re.split(pattern, text)` with one capture group: the pieces of text
between matches, interleaved with the captured markers. -/
def pySplitAux : Nat → List Char → Bool → List (List Char)
  | 0, cs, _ => [cs]
  | fuel + 1, cs, b =>
    match findMarker cs b with
    | none => [cs]
    | some (pre, cap, rest) => pre :: cap :: pySplitAux fuel rest true

def pySplitMarkers (cs : List Char) : List (List Char) := pySplitAux (cs.length + 1) cs true

/-! ## `format_output` -/

/-- The three section keys of the parsed document. -/
inductive SKey | summary | resume | cover
deriving DecidableEq, Repr

/-- The result mapping of `format_output`: exactly the keys `summary`,
`resume`, `cover_letter` (the Python dict always holds exactly these
three keys). -/
structure Sections where
  summary : List Char
  resume : List Char
  cover_letter : List Char
deriving DecidableEq, Repr

/-- `part.strip().upper()`, used to recognise which marker a split part is. -/
def upperStrip (p : List Char) : List Char := pyUpper (pyStrip p)

/-- The accumulation loop of `format_output`: walk the split parts,
switching the current section on marker parts and appending any other
part to the current section (parts seen before the first marker are
dropped, since `current` is `None`). -/
def foldParts : List (List Char) → Option SKey → Sections → Sections
  | [], _, s => s
  | p :: ps, cur, s =>
    if upperStrip p = "SUMMARY".data then foldParts ps (some .summary) s
    else if upperStrip p = "RESUME".data then foldParts ps (some .resume) s
    else if upperStrip p = "COVER LETTER".data then foldParts ps (some .cover) s
    else
      match cur with
      | some .summary => foldParts ps cur { s with summary := s.summary ++ p }
      | some .resume => foldParts ps cur { s with resume := s.resume ++ p }
      | some .cover => foldParts ps cur { s with cover_letter := s.cover_letter ++ p }
      | none => foldParts ps cur s

/-- `format_output(raw_text)`: strip markdown, split on the marker
pattern, accumulate sections, apply the zero-marker fallback, and trim
every value. -/
def format_output (raw : List Char) : Sections :=
  let t := strip_md raw
  let acc := foldParts (pySplitMarkers t) none ⟨[], [], []⟩
  let acc2 :=
    if acc.summary = [] ∧ acc.resume = [] ∧ acc.cover_letter = [] then
      { acc with resume := pyStrip t }
    else acc
  ⟨pyStrip acc2.summary, pyStrip acc2.resume, pyStrip acc2.cover_letter⟩

/-! ## `evaluate_resume` -/

/-- The fixed action-verb vocabulary (49 verbs, source order). -/
def ACTION_VERBS : List (List Char) :=
  ["achieved", "analyzed", "built", "collaborated", "created", "designed",
   "developed", "enhanced", "engineered", "executed", "facilitated",
   "generated", "implemented", "improved", "integrated", "launched",
   "led", "managed", "optimized", "orchestrated", "produced", "reduced",
   "researched", "resolved", "spearheaded", "streamlined", "trained",
   "transformed", "utilized", "won", "automated", "deployed", "documented",
   "established", "formulated", "initiated", "maintained", "mentored",
   "negotiated", "performed", "planned", "presented", "programmed",
   "published", "reviewed", "solved", "supported", "tested", "validated"
  ].map String.data

/-- `found_verbs`: the vocabulary verbs occurring as whole words in the
lowercased text, in vocabulary order. -/
def foundVerbs (rl : List Char) : List (List Char) :=
  ACTION_VERBS.filter (fun v => wordSearch v rl)

/-- `skill_list`: comma-split, trimmed, lowercased, empties dropped. -/
def skillList (skills : List Char) : List (List Char) :=
  ((splitChar ',' skills).map (fun s => pyLower (pyStrip s))).filter (fun s => !s.isEmpty)

/-- `job_words`: the distinct `\w+` words of the lowercased role
(Python builds a `set`; only membership and cardinality matter). -/
def jobWords (job_role : List Char) : List (List Char) :=
  (findallW (pyLower job_role)).dedup

/-- `skills_hit`: skills occurring as literal substrings of the text. -/
def skillsHit (rl : List Char) (skills : List Char) : List (List Char) :=
  (skillList skills).filter (fun s => containsSub s rl)

/-- `jkw_hit`: role words occurring as whole words and longer than 3. -/
def jkwHit (rl : List Char) (job_role : List Char) : List (List Char) :=
  (jobWords job_role).filter (fun w => wordSearch w rl && decide (3 < w.length))

/-- `wc`: `len(rl.split())`. -/
def wordCount (rl : List Char) : Nat := (pySplitWs rl).length

/-- The rule-based score report returned by `evaluate_resume`. -/
structure ScoreReport where
  total_score : Nat
  verb_score : Nat
  keyword_score : Nat
  length_score : Nat
  verb_count : Nat
  found_verbs : List (List Char)
  skills_matched : List (List Char)
  job_keywords_matched : List (List Char)
  word_count : Nat
  grade : String
  color : String
deriving DecidableEq, Repr

/-- The `if/elif` grade ladder of `evaluate_resume`, evaluated high to
low with the first matching threshold winning. -/
def gradeColor (total : Nat) : String × String :=
  if 85 ≤ total then ("Excellent ✅", "#10b981")
  else if 65 ≤ total then ("Good 👍", "#3b82f6")
  else if 45 ≤ total then ("Average ⚠️", "#f59e0b")
  else ("Needs Improvement ❌", "#ef4444")

/-- `evaluate_resume(resume_text, skills, job_role)`. -/
def evaluate_resume (resume_text skills job_role : List Char) : ScoreReport :=
  let rl := pyLower resume_text
  let found_verbs := foundVerbs rl
  let verb_score := min 30 (found_verbs.length * 5)
  let skill_list := skillList skills
  let job_words := jobWords job_role
  let skills_hit := skillsHit rl skills
  let jkw_hit := jkwHit rl job_role
  let total_kw := max (skill_list.length + job_words.length) 1
  let kw_score := min 40 ((skills_hit.length + jkw_hit.length) * 80 / total_kw)
  let wc := wordCount rl
  let len_score := min 30 (wc * 30 / 300)
  let total := verb_score + kw_score + len_score
  let gc : String × String := gradeColor total
  { total_score := total, verb_score := verb_score, keyword_score := kw_score,
    length_score := len_score, verb_count := found_verbs.length,
    found_verbs := found_verbs.take 10, skills_matched := skills_hit,
    job_keywords_matched := jkw_hit, word_count := wc,
    grade := gc.1, color := gc.2 }

/-! ## `analyze_jd`: parsing the model response

The network call itself is outside this embedding; `analyze_jd_parse`
is the pure parsing tail of `analyze_jd`, applied to the raw response
text.  `block(marker)` is
`re.search(rf"(?im)^{marker}\s*\n(.*?)(?=\n[A-Z_]{3,}\n|\Z)", raw, re.DOTALL)`:
the label at a line start, `\s*\n` (greedy, so it ends at the last
newline of the following whitespace run), then a non-greedy capture up
to a lookahead at a line consisting solely of at least three
letters/underscores (case-insensitive), or end of input. -/

/-- `[A-Z_]` under `re.IGNORECASE`. -/
def isBlockLetter (c : Char) : Bool :=
  ('A' ≤ c && c ≤ 'Z') || ('a' ≤ c && c ≤ 'z') || c = '_'

/-- The lookahead `(?=\n[A-Z_]{3,}\n|\Z)` at the current position. -/
def termLookahead : List Char → Bool
  | [] => true
  | '\n' :: rest =>
    let w := rest.takeWhile isBlockLetter
    decide (3 ≤ w.length) && (rest.drop w.length).head? = some '\n'
  | _ :: _ => false

/-- `\s*\n` (greedy): consume whitespace and a final newline, returning
the remainder after the consumed newline. -/
def sNlSplit : List Char → Option (List Char)
  | [] => none
  | c :: cs =>
    if isPySpace c then
      match sNlSplit cs with
      | some r => some r
      | none => if c = '\n' then some cs else none
    else none

/-- `(.*?)(?=\n[A-Z_]{3,}\n|\Z)` with DOTALL: the shortest prefix whose
end satisfies the lookahead (always defined, since end of input does). -/
def captureTo : List Char → List Char
  | [] => []
  | c :: rest => if termLookahead (c :: rest) then [] else c :: captureTo rest

/-- Scan for the leftmost line-start occurrence of `marker ++ \s*\n` and
return the captured block. -/
def findBlock (marker : List Char) : Nat → List Char → Bool → Option (List Char)
  | 0, _, _ => none
  | fuel + 1, cs, b =>
    match (if b then
            match matchCI marker cs with
            | some (_, rest) => sNlSplit rest
            | none => none
           else none) with
    | some afterNl => some (captureTo afterNl)
    | none =>
      match cs with
      | [] => none
      | c :: cs1 => findBlock marker fuel cs1 (c = '\n')

/-- `block(marker)` of `analyze_jd`: the captured text stripped, or `""`. -/
def blockOf (raw : List Char) (marker : List Char) : List Char :=
  match findBlock marker (raw.length + 1) raw true with
  | some cap => pyStrip cap
  | none => []

/-- `re.search(r"\d+", t)`: the first maximal digit run. -/
def firstDigits : List Char → Option (List Char)
  | [] => none
  | c :: cs =>
    if c.isDigit then some (c :: cs.takeWhile Char.isDigit) else firstDigits cs

/-- `int(...)` of a digit run. -/
def digitsToNat (ds : List Char) : Nat :=
  ds.foldl (fun a c => a * 10 + (c.toNat - 48)) 0

/-- The `csv` lambda: comma-split, trimmed, empties dropped. -/
def csvF (t : List Char) : List (List Char) :=
  ((splitChar ',' t).map pyStrip).filter (fun s => !s.isEmpty)

/-- The `buls` lambda: nonblank lines, each with leading `"- "`
characters removed and trimmed. -/
def bulsF (t : List Char) : List (List Char) :=
  ((pyLines t).filter (fun s => !(pyStrip s).isEmpty)).map
    (fun s => pyStrip (s.dropWhile (fun c => c = '-' || c = ' ')))

/-- The parsed gap-analysis report. -/
structure GapReport where
  match_score : Nat
  missing_keywords : List (List Char)
  present_keywords : List (List Char)
  suggestions : List (List Char)
  quick_wins : List (List Char)
deriving DecidableEq, Repr

/-- The parsing tail of `analyze_jd`, applied to the raw model output.
`score` defaults to 0 when no digit run exists (the `except` branch). -/
def analyze_jd_parse (raw : List Char) : GapReport :=
  let score :=
    match firstDigits (blockOf raw "match_score".data) with
    | some ds => digitsToNat ds
    | none => 0
  { match_score := score,
    missing_keywords := csvF (blockOf raw "missing_keywords".data),
    present_keywords := csvF (blockOf raw "present_keywords".data),
    suggestions := bulsF (blockOf raw "suggestions".data),
    quick_wins := bulsF (blockOf raw "quick_wins".data) }

/-! ## `_body`: line classification of the shared PDF body renderer -/

inductive LineKind | blank | heading | bullet | paragraph
deriving DecidableEq, Repr

/-- Whether the line contains an uppercase ASCII letter
(`re.search(r"[A-Z]", raw)`). -/
def hasUpperAZ (cs : List Char) : Bool := cs.any (fun c => 'A' ≤ c && c ≤ 'Z')

/-- The per-line classification of `_body`: strip the line; blank lines
emit spacing only; `is_head` is
`raw == raw.upper() and re.search(r"[A-Z]", raw) and len(raw) <= 50 and
not raw.startswith("-")`; otherwise lines starting `"- "` are bullets
and the rest are paragraphs. -/
def classifyLine (line : List Char) : LineKind :=
  let raw := pyStrip line
  if raw.isEmpty then .blank
  else if raw = pyUpper raw && hasUpperAZ raw && decide (raw.length ≤ 50) &&
          !(raw.head? = some '-') then .heading
  else if "- ".data.isPrefixOf raw then .bullet
  else .paragraph

/-! ## `_s`: Latin-1 transliteration for the PDF back end -/

/-- The replacement table of `_s`, in source (insertion) order. -/
def replPairs : List (Char × List Char) :=
  [('–', "-".data), ('—', "--".data),
   ('‘', [Char.ofNat 39]), ('’', [Char.ofNat 39]),
   ('“', [Char.ofNat 34]), ('”', [Char.ofNat 34]),
   ('•', "-".data), ('…', "...".data),
   ('é', "e".data), ('è', "e".data), ('ê', "e".data),
   ('à', "a".data), ('ä', "a".data), ('ö', "o".data),
   ('ü', "u".data), ('·', ".".data), (Char.ofNat 160, " ".data),
   ('→', "->".data), ('─', "-".data)]

/-- `text.replace(k, v)` for a single-character needle. -/
def replaceChar (k : Char) (v : List Char) : List Char → List Char
  | [] => []
  | c :: cs => (if c = k then v else [c]) ++ replaceChar k v cs

/-- Characters representable in Latin-1 (`encode("latin-1")` succeeds). -/
def isLatin1 (c : Char) : Bool := decide (c.toNat ≤ 255)

/-- `_s(text)`: apply the replacement table in order, then
`encode("latin-1", errors="ignore").decode("latin-1")`, which drops
every character outside Latin-1 instead of raising. -/
def sanitize_s (cs : List Char) : List Char :=
  (replPairs.foldl (fun acc p => replaceChar p.1 p.2 acc) cs).filter isLatin1

/-! ## General lemmas: characters and trimming -/

theorem char_toNat_ofNat_valid (n : Nat) (h : n.isValidChar) : (Char.ofNat n).toNat = n := by
  unfold Char.ofNat
  rw [dif_pos h]
  rfl

theorem char_toNat_inj {a b : Char} (h : a.toNat = b.toNat) : a = b :=
  Char.ext (UInt32.ext h)

theorem char_valid_of_lt {n : Nat} (h : n < 0xd800) : n.isValidChar := Or.inl h

/-- Case-insensitive matching of a character determines its uppercase form. -/
theorem toUpper_of_toLower {c p : Char} (h : c.toLower = p) : c.toUpper = p.toUpper := by
  unfold Char.toLower at h
  by_cases hc : c.toNat ≥ 65 ∧ c.toNat ≤ 90
  · rw [if_pos hc] at h
    have hv : (c.toNat + 32).isValidChar := char_valid_of_lt (by omega)
    have hp : p.toNat = c.toNat + 32 := by rw [← h, char_toNat_ofNat_valid _ hv]
    have h1 : c.toUpper = c := by
      unfold Char.toUpper
      rw [if_neg (by omega)]
    have h2 : p.toUpper = c := by
      unfold Char.toUpper
      rw [if_pos (by omega)]
      apply char_toNat_inj
      rw [char_toNat_ofNat_valid _ (char_valid_of_lt (by omega))]
      omega
    rw [h1, h2]
  · rw [if_neg hc] at h
    rw [h]

/-- A character fixed by `toUpper` is not a lowercase ASCII letter. -/
theorem isLower_false_of_fixed {c : Char} (h : c.toUpper = c) : c.isLower = false := by
  by_contra hcon
  rw [Bool.not_eq_false] at hcon
  have h97 : 97 ≤ c.toNat ∧ c.toNat ≤ 122 := by
    simp only [Char.isLower, ge_iff_le, Bool.and_eq_true, decide_eq_true_eq] at hcon
    exact ⟨hcon.1, hcon.2⟩
  unfold Char.toUpper at h
  rw [if_pos (by omega)] at h
  have h2 := congrArg Char.toNat h
  rw [char_toNat_ofNat_valid _ (char_valid_of_lt (by omega))] at h2
  omega

/-- On characters fixed by `toUpper`, being a letter is being uppercase. -/
theorem isAlpha_eq_isUpper_of_fixed {c : Char} (h : c.toUpper = c) :
    c.isAlpha = c.isUpper := by
  simp only [Char.isAlpha, isLower_false_of_fixed h, Bool.or_false]

theorem eq_map_fixed {f : Char → Char} : ∀ {l : List Char}, l = l.map f → ∀ c ∈ l, f c = c
  | [], _, c, hc => absurd hc (List.not_mem_nil c)
  | a :: t, h, c, hc => by
    rw [List.map_cons] at h
    obtain ⟨h1, h2⟩ := List.cons.inj h
    rcases List.mem_cons.mp hc with rfl | hct
    · exact h1.symm
    · exact eq_map_fixed h2 c hct

theorem head_dropWhile_false (p : Char → Bool) :
    ∀ (l : List Char) {c : Char}, (l.dropWhile p).head? = some c → p c = false
  | [], c, h => by simp [List.dropWhile] at h
  | a :: l, c, h => by
    rw [List.dropWhile_cons] at h
    by_cases hp : p a
    · rw [if_pos hp] at h
      exact head_dropWhile_false p l h
    · rw [if_neg hp] at h
      simp only [List.head?_cons, Option.some.injEq] at h
      subst h
      simpa using hp

theorem dropWhile_eq_self_of_head (p : Char → Bool) (l : List Char)
    (h : ∀ c, l.head? = some c → p c = false) : l.dropWhile p = l := by
  cases l with
  | nil => rfl
  | cons a t =>
    rw [List.dropWhile_cons, if_neg]
    simp [h a rfl]

theorem dropWhile_idem (p : Char → Bool) (l : List Char) :
    (l.dropWhile p).dropWhile p = l.dropWhile p :=
  dropWhile_eq_self_of_head p _ (fun _ hc => head_dropWhile_false p l hc)

/-- `strip` is idempotent: the values `format_output` returns are trimmed. -/
theorem pyStrip_idem (l : List Char) : pyStrip (pyStrip l) = pyStrip l := by
  unfold pyStrip
  have h1 : (((l.dropWhile isPySpace).reverse.dropWhile isPySpace).reverse).dropWhile isPySpace
      = ((l.dropWhile isPySpace).reverse.dropWhile isPySpace).reverse := by
    apply dropWhile_eq_self_of_head
    intro c hc
    obtain ⟨t, ht⟩ := List.dropWhile_suffix (l := (l.dropWhile isPySpace).reverse) (p := isPySpace)
    have hA : l.dropWhile isPySpace
        = ((l.dropWhile isPySpace).reverse.dropWhile isPySpace).reverse ++ t.reverse := by
      have h2 := congrArg List.reverse ht
      rw [List.reverse_append, List.reverse_reverse] at h2
      exact h2.symm
    apply head_dropWhile_false isPySpace l
    rw [hA]
    cases hXr : ((l.dropWhile isPySpace).reverse.dropWhile isPySpace).reverse with
    | nil => rw [hXr] at hc; simp at hc
    | cons a t2 =>
      rw [hXr] at hc
      simp only [List.head?_cons, Option.some.injEq] at hc
      subst hc
      rfl
  rw [h1, List.reverse_reverse, dropWhile_idem]

/-! ## C2: score bounds and decomposition -/

/-- C2.  For every text, skills string and job-role string,
`evaluate_resume` returns a report whose `total_score` lies in `[0,100]`
and equals `verb_score + keyword_score + length_score`, with
`verb_score ≤ 30`, `keyword_score ≤ 40` and `length_score ≤ 30` (each
sub-score clamped to its band before summation; all scores are
nonnegative integers by construction). -/
theorem C2_total_score_bounds (t s j : List Char) :
    (evaluate_resume t s j).total_score =
      (evaluate_resume t s j).verb_score + (evaluate_resume t s j).keyword_score +
        (evaluate_resume t s j).length_score ∧
    (evaluate_resume t s j).verb_score ≤ 30 ∧
    (evaluate_resume t s j).keyword_score ≤ 40 ∧
    (evaluate_resume t s j).length_score ≤ 30 ∧
    (evaluate_resume t s j).total_score ≤ 100 := by
  have h1 : (evaluate_resume t s j).verb_score ≤ 30 := Nat.min_le_left _ _
  have h2 : (evaluate_resume t s j).keyword_score ≤ 40 := Nat.min_le_left _ _
  have h3 : (evaluate_resume t s j).length_score ≤ 30 := Nat.min_le_left _ _
  have h4 : (evaluate_resume t s j).total_score =
      (evaluate_resume t s j).verb_score + (evaluate_resume t s j).keyword_score +
        (evaluate_resume t s j).length_score := rfl
  exact ⟨h4, h1, h2, h3, by omega⟩

/-! ## C7: grade ladder and the 1:1 grade/colour pairing -/

theorem gradeColor_cases (k : Nat) :
    gradeColor k = ("Excellent ✅", "#10b981") ∨ gradeColor k = ("Good 👍", "#3b82f6") ∨
    gradeColor k = ("Average ⚠️", "#f59e0b") ∨
    gradeColor k = ("Needs Improvement ❌", "#ef4444") := by
  unfold gradeColor
  split_ifs <;> simp

/-- C7.  The grade is assigned by the threshold ladder evaluated high to
low with the first match winning (`≥ 85`, then `≥ 65`, then `≥ 45`, else
the bottom tier); the grade/colour pair is a function of `total_score`
alone, and grade and colour determine each other (a 1:1 pairing). -/
theorem C7_grade_ladder :
    (∀ t s j : List Char,
      (evaluate_resume t s j).grade = (gradeColor (evaluate_resume t s j).total_score).1 ∧
      (evaluate_resume t s j).color = (gradeColor (evaluate_resume t s j).total_score).2) ∧
    (∀ n : Nat,
      (85 ≤ n → gradeColor n = ("Excellent ✅", "#10b981")) ∧
      (65 ≤ n → n < 85 → gradeColor n = ("Good 👍", "#3b82f6")) ∧
      (45 ≤ n → n < 65 → gradeColor n = ("Average ⚠️", "#f59e0b")) ∧
      (n < 45 → gradeColor n = ("Needs Improvement ❌", "#ef4444"))) ∧
    (∀ m n : Nat, (gradeColor m).1 = (gradeColor n).1 ↔ (gradeColor m).2 = (gradeColor n).2) := by
  refine ⟨fun t s j => ⟨rfl, rfl⟩, fun n => ?_, fun m n => ?_⟩
  · refine ⟨fun h1 => ?_, fun h1 h2 => ?_, fun h1 h2 => ?_, fun h1 => ?_⟩ <;>
      · unfold gradeColor
        split_ifs <;> first | rfl | omega
  · rcases gradeColor_cases m with hm | hm | hm | hm <;>
      rcases gradeColor_cases n with hn | hn | hn | hn <;>
      rw [hm, hn] <;> decide


/-- Witness for C7: the ladder applied at scores in the top and bottom
bands. -/
theorem C7_grade_ladder_witness :
    gradeColor 90 = ("Excellent ✅", "#10b981") ∧
    gradeColor 44 = ("Needs Improvement ❌", "#ef4444") :=
  ⟨(C7_grade_ladder.2.1 90).1 (by decide), (C7_grade_ladder.2.1 44).2.2.2 (by decide)⟩

/-! ## C3: the keyword-match component -/

/-- C3.  A skill (comma-split, trimmed, lowercased) is matched iff it is
a literal substring of the lowercased text; a role word is matched iff
it occurs as a whole word and has length > 3; and
`keyword_score = min 40 ((matched * 80) / max total 1)`.  On the
scenario input both skills match and the keyword score is positive. -/
theorem C3_keyword_component :
    (∀ t s j : List Char,
      (evaluate_resume t s j).keyword_score =
        min 40 (((skillsHit (pyLower t) s).length + (jkwHit (pyLower t) j).length) * 80 /
          max ((skillList s).length + (jobWords j).length) 1) ∧
      (evaluate_resume t s j).skills_matched =
        (skillList s).filter (fun w => containsSub w (pyLower t)) ∧
      (evaluate_resume t s j).job_keywords_matched =
        (jobWords j).filter (fun w => wordSearch w (pyLower t) && decide (3 < w.length))) ∧
    (evaluate_resume "I used python and sql to analyze data.".data "Python, SQL".data
        "Data Analyst".data).skills_matched = ["python".data, "sql".data] ∧
    (evaluate_resume "I used python and sql to analyze data.".data "Python, SQL".data
        "Data Analyst".data).keyword_score = 40 ∧
    0 < (evaluate_resume "I used python and sql to analyze data.".data "Python, SQL".data
        "Data Analyst".data).keyword_score := by
  exact ⟨fun t s j => ⟨rfl, rfl, rfl⟩, by decide, by decide, by decide⟩

/-! ## C6: the action-verb component -/

/-- C6.  `verb_score = min 30 (5 * n)` where `n` counts the distinct
vocabulary verbs found as whole words (the found list is a sublist of
the fixed vocabulary, hence distinct and in vocabulary order); zero
recognized verbs give score 0, six or more give the cap 30; the reported
`found_verbs` list is truncated to the first 10 while the score and
`verb_count` use the full count. -/
theorem C6_verb_component :
    (∀ t s j : List Char,
      (evaluate_resume t s j).verb_score = min 30 (5 * (foundVerbs (pyLower t)).length) ∧
      (evaluate_resume t s j).found_verbs = (foundVerbs (pyLower t)).take 10 ∧
      (evaluate_resume t s j).verb_count = (foundVerbs (pyLower t)).length ∧
      (foundVerbs (pyLower t)).Sublist ACTION_VERBS) ∧
    (∀ t s j : List Char, (foundVerbs (pyLower t)).length = 0 →
      (evaluate_resume t s j).verb_score = 0) ∧
    (∀ t s j : List Char, 6 ≤ (foundVerbs (pyLower t)).length →
      (evaluate_resume t s j).verb_score = 30) ∧
    (evaluate_resume [] [] []).verb_score = 0 ∧
    (evaluate_resume "achieved analyzed built created designed developed stuff".data
      [] []).verb_score = 30 := by
  refine ⟨fun t s j => ⟨?_, rfl, rfl, List.filter_sublist _⟩, fun t s j h => ?_, fun t s j h => ?_,
    by decide, by decide⟩
  · show min 30 ((foundVerbs (pyLower t)).length * 5) = _
    rw [Nat.mul_comm]
  · show min 30 ((foundVerbs (pyLower t)).length * 5) = 0
    rw [h]
    omega
  · show min 30 ((foundVerbs (pyLower t)).length * 5) = 30
    have : 30 ≤ (foundVerbs (pyLower t)).length * 5 := by omega
    omega

/-- Witness for C6: a text with exactly six recognized verbs scores 30
through the third conjunct, and the empty text has no verbs. -/
theorem C6_verb_component_witness :
    (evaluate_resume "won and led: achieved, analyzed, built, created things".data
      "x".data "y".data).verb_score = 30 ∧
    (evaluate_resume "nothing here".data [] []).verb_score = 0 := by
  constructor
  · exact C6_verb_component.2.2.1 _ "x".data "y".data (by decide)
  · exact C6_verb_component.2.1 _ [] [] (by decide)

/-! ## C9: the Latin-1 transliterator -/

/-- C9.  `_s` never raises: it is a total function; the listed non-ASCII
punctuation is transliterated to ASCII equivalents; every character of
the output is Latin-1 representable; and any character outside Latin-1
surviving the replacement table is dropped rather than propagated. -/
theorem C9_sanitize :
    (∀ s : List Char, ∀ c ∈ sanitize_s s, c.toNat ≤ 255) ∧
    (∀ s : List Char, ∀ c : Char,
      255 < c.toNat → c ∉ sanitize_s s) ∧
    sanitize_s "–".data = "-".data ∧
    sanitize_s "—".data = "--".data ∧
    sanitize_s "‘’".data = [Char.ofNat 39, Char.ofNat 39] ∧
    sanitize_s "“”".data = [Char.ofNat 34, Char.ofNat 34] ∧
    sanitize_s "•".data = "-".data ∧
    sanitize_s "…".data = "...".data ∧
    sanitize_s "→".data = "->".data ∧
    sanitize_s "abc, ok!".data = "abc, ok!".data ∧
    sanitize_s "日本語".data = [] := by
  refine ⟨?_, ?_, by decide, by decide, by decide, by decide, by decide, by decide, by decide,
    by decide, by decide⟩
  · intro s c hc
    have := List.of_mem_filter hc
    simpa [isLatin1] using this
  · intro s c hgt hc
    have := List.of_mem_filter hc
    simp only [isLatin1, decide_eq_true_eq] at this
    omega


/-- Witness for C9: a surviving replacement character is Latin-1, and a
character beyond Latin-1 is dropped from the output. -/
theorem C9_sanitize_witness :
    Char.toNat '-' ≤ 255 ∧ '→' ∉ sanitize_s "x→y".data :=
  ⟨C9_sanitize.1 "–".data '-' (by decide), C9_sanitize.2.1 "x→y".data '→' (by decide)⟩

/-! ## C1: the section parser contract -/

/-- The raw accumulation of `format_output` before fallback and trim. -/
def accOf (raw : List Char) : Sections :=
  foldParts (pySplitMarkers (strip_md raw)) none ⟨[], [], []⟩

/-- The accumulation after the zero-marker fallback. -/
def acc2Of (raw : List Char) : Sections :=
  if (accOf raw).summary = [] ∧ (accOf raw).resume = [] ∧ (accOf raw).cover_letter = [] then
    { accOf raw with resume := pyStrip (strip_md raw) }
  else accOf raw

theorem format_output_eq (raw : List Char) :
    format_output raw =
      ⟨pyStrip (acc2Of raw).summary, pyStrip (acc2Of raw).resume,
        pyStrip (acc2Of raw).cover_letter⟩ := rfl

/-- If the marker scan finds nothing, the split is trivial. -/
theorem pySplitMarkers_of_none {t : List Char} (h : findMarker t true = none) :
    pySplitMarkers t = [t] := by
  unfold pySplitMarkers pySplitAux
  rw [h]

/-- Folding a single part accumulates nothing (the part either switches
the current key or is dropped because `current` is `None`). -/
theorem foldParts_single (p : List Char) :
    foldParts [p] none ⟨[], [], []⟩ = ⟨[], [], []⟩ := by
  unfold foldParts
  split_ifs <;> rfl

/-- With no marker found, the fallback assigns the trimmed normalized
text to `resume` and the other keys are empty. -/
theorem format_output_of_no_marker {raw : List Char}
    (h : findMarker (strip_md raw) true = none) :
    format_output raw = ⟨[], pyStrip (strip_md raw), []⟩ := by
  have hacc : accOf raw = ⟨[], [], []⟩ := by
    unfold accOf
    rw [pySplitMarkers_of_none h, foldParts_single]
  rw [format_output_eq]
  unfold acc2Of
  rw [hacc]
  rw [if_pos ⟨rfl, rfl, rfl⟩]
  show Sections.mk (pyStrip []) (pyStrip (pyStrip (strip_md raw))) (pyStrip []) = _
  rw [pyStrip_idem]
  rfl

/-- C1.  `format_output` always returns a mapping with exactly the three
keys (the `Sections` structure), each value trimmed; when the marker
scan finds none of the three marker lines in the normalized text, the
whole markdown-stripped, trimmed input lands in `resume` and the other
two values are empty.  The scenario input parses into its three
sections. -/
theorem C1_sections_contract :
    (∀ raw : List Char,
      pyStrip (format_output raw).summary = (format_output raw).summary ∧
      pyStrip (format_output raw).resume = (format_output raw).resume ∧
      pyStrip (format_output raw).cover_letter = (format_output raw).cover_letter) ∧
    (∀ raw : List Char, findMarker (strip_md raw) true = none →
      format_output raw = ⟨[], pyStrip (strip_md raw), []⟩) ∧
    format_output "SUMMARY\nHi.\nRESUME\nJOHN DOE\n  - built an app\nCOVER LETTER\nDear team,".data
      = ⟨"Hi.".data, "JOHN DOE\n  - built an app".data, "Dear team,".data⟩ := by
  refine ⟨fun raw => ?_, fun raw h => format_output_of_no_marker h, by decide⟩
  rw [format_output_eq]
  exact ⟨pyStrip_idem _, pyStrip_idem _, pyStrip_idem _⟩

/-- Witness for C1: a marker-free input goes wholly to `resume`. -/
theorem C1_sections_contract_witness :
    format_output "just some plain text".data =
      ⟨[], "just some plain text".data, []⟩ := by
  have h := C1_sections_contract.2.1 "just some plain text".data (by decide)
  rw [h]
  decide

/-! ## C5: the gap-analysis response parser -/

/-- Counterexample to C5 as stated: the code never clamps the parsed
score, so a model output of `150` yields `match_score = 150 ∉ [0,100]`. -/
theorem C5_counterexample :
    (analyze_jd_parse "MATCH_SCORE\n150\n".data).match_score = 150 ∧
    ¬ (analyze_jd_parse "MATCH_SCORE\n150\n".data).match_score ≤ 100 := by decide

/-- C5 (amended).  The parser is a total function of the raw text:
`match_score` is the first run of digits of the `MATCH_SCORE` block (a
nonnegative integer, not clamped to 100), defaulting to 0 when no digit
run can be extracted; a missing labeled block yields an empty list; the
scenario block parses to score 72 and the two missing keywords. -/
theorem C5_amended :
    (∀ raw : List Char,
      (analyze_jd_parse raw).match_score =
        (match firstDigits (blockOf raw "match_score".data) with
         | some ds => digitsToNat ds
         | none => 0) ∧
      (firstDigits (blockOf raw "match_score".data) = none →
        (analyze_jd_parse raw).match_score = 0) ∧
      (findBlock "missing_keywords".data (raw.length + 1) raw true = none →
        (analyze_jd_parse raw).missing_keywords = []) ∧
      (findBlock "present_keywords".data (raw.length + 1) raw true = none →
        (analyze_jd_parse raw).present_keywords = []) ∧
      (findBlock "suggestions".data (raw.length + 1) raw true = none →
        (analyze_jd_parse raw).suggestions = []) ∧
      (findBlock "quick_wins".data (raw.length + 1) raw true = none →
        (analyze_jd_parse raw).quick_wins = [])) ∧
    (analyze_jd_parse
      "MATCH_SCORE\n72 (strong)\n\nMISSING_KEYWORDS\ndocker, kubernetes\n".data).match_score
      = 72 ∧
    (analyze_jd_parse
      "MATCH_SCORE\n72 (strong)\n\nMISSING_KEYWORDS\ndocker, kubernetes\n".data).missing_keywords
      = ["docker".data, "kubernetes".data] := by
  refine ⟨fun raw => ⟨rfl, fun h => ?_, fun h => ?_, fun h => ?_, fun h => ?_, fun h => ?_⟩,
    by decide, by decide⟩
  · unfold analyze_jd_parse
    rw [h]
  · unfold analyze_jd_parse blockOf
    rw [h]
    rfl
  · unfold analyze_jd_parse blockOf
    rw [h]
    rfl
  · unfold analyze_jd_parse blockOf
    rw [h]
    rfl
  · unfold analyze_jd_parse blockOf
    rw [h]
    rfl

/-- Witness for C5: with no labeled blocks at all, the score defaults to
0 and the keyword lists are empty, through the amended theorem. -/
theorem C5_amended_witness :
    (analyze_jd_parse "no labels here".data).match_score = 0 ∧
    (analyze_jd_parse "no labels here".data).missing_keywords = [] :=
  ⟨(C5_amended.1 "no labels here".data).2.1 (by decide),
   (C5_amended.1 "no labels here".data).2.2.1 (by decide)⟩

/-! ## C4/C10 machinery I: elementary scanner lemmas -/

/-- A whole line that the marker pattern matches completely (for
newline-free `L` this says: the line is a marker line). -/
def isMarkerLine (L : List Char) : Bool :=
  match matchAt L with
  | some (_, []) => true
  | _ => false

/-- Whitespace other than space/tab/newline (`\r`, `\v`, `\f`) defeats
the `[ \t]*` indentation class of the marker pattern while still being
removed by `str.strip`; an input is clean when it avoids such
characters. -/
def cleanChar (c : Char) : Bool := !(c = '\r' || c = '\x0b' || c = '\x0c')

def cleanWs (cs : List Char) : Bool := cs.all cleanChar

theorem wsDollar_shape : ∀ {cs rest : List Char}, wsDollar cs = some rest →
    rest = [] ∨ ∃ t, rest = '\n' :: t
  | [], rest, h => by
    unfold wsDollar at h
    cases h
    exact Or.inl rfl
  | c :: cs, rest, h => by
    unfold wsDollar at h
    by_cases hc : isPySpace c
    · rw [if_pos hc] at h
      cases hw : wsDollar cs with
      | some r =>
        rw [hw] at h
        cases h
        exact wsDollar_shape hw
      | none =>
        rw [hw] at h
        by_cases hnl : c = '\n'
        · rw [if_pos hnl] at h
          cases h
          exact Or.inr ⟨cs, by rw [hnl]⟩
        · rw [if_neg hnl] at h
          cases h
    · rw [if_neg hc] at h
      cases h

theorem wsDollar_of_all : ∀ {cs : List Char}, cs.all isPySpace = true → wsDollar cs = some []
  | [], _ => rfl
  | c :: cs, h => by
    rw [List.all_cons, Bool.and_eq_true] at h
    unfold wsDollar
    rw [if_pos h.1, wsDollar_of_all h.2]

theorem all_of_wsDollar_nil : ∀ {cs : List Char}, wsDollar cs = some [] → cs.all isPySpace = true
  | [], _ => rfl
  | c :: cs, h => by
    unfold wsDollar at h
    by_cases hc : isPySpace c
    · rw [if_pos hc] at h
      cases hw : wsDollar cs with
      | some r =>
        rw [hw] at h
        cases h
        rw [List.all_cons, Bool.and_eq_true]
        exact ⟨hc, all_of_wsDollar_nil hw⟩
      | none =>
        rw [hw] at h
        by_cases hnl : c = '\n'
        · rw [if_pos hnl] at h
          cases h
        · rw [if_neg hnl] at h
          cases h
    · rw [if_neg hc] at h
      cases h

theorem wsDollar_nl_ne_none : ∀ (W : List Char), W.all isPySpace = true →
    ∀ T, wsDollar (W ++ '\n' :: T) ≠ none
  | [], _, T => by
    intro h
    rw [List.nil_append] at h
    unfold wsDollar at h
    rw [if_pos (by decide)] at h
    cases hw : wsDollar T with
    | some r => rw [hw] at h; cases h
    | none => rw [hw, if_pos rfl] at h; cases h
  | c :: W, hall, T => by
    rw [List.all_cons, Bool.and_eq_true] at hall
    intro h
    rw [List.cons_append] at h
    unfold wsDollar at h
    rw [if_pos hall.1] at h
    cases hw : wsDollar (W ++ '\n' :: T) with
    | some r => rw [hw] at h; cases h
    | none => exact wsDollar_nl_ne_none W hall.2 T hw

theorem wsDollar_suffix : ∀ {cs rest : List Char}, wsDollar cs = some rest → rest <:+ cs
  | [], rest, h => by
    unfold wsDollar at h
    cases h
    exact List.nil_suffix
  | c :: cs, rest, h => by
    unfold wsDollar at h
    by_cases hc : isPySpace c
    · rw [if_pos hc] at h
      cases hw : wsDollar cs with
      | some r =>
        rw [hw] at h
        cases h
        exact (wsDollar_suffix hw).trans (List.suffix_cons c cs)
      | none =>
        rw [hw] at h
        by_cases hnl : c = '\n'
        · rw [if_pos hnl] at h
          cases h
          exact List.suffix_refl _
        · rw [if_neg hnl] at h
          cases h
    · rw [if_neg hc] at h
      cases h

theorem takeWhile_append_nil {p : Char → Bool} {B : List Char} (hB : B.takeWhile p = []) :
    ∀ A : List Char, (A ++ B).takeWhile p = A.takeWhile p
  | [] => by rw [List.nil_append, hB]; rfl
  | c :: A => by
    rw [List.cons_append, List.takeWhile_cons, List.takeWhile_cons]
    by_cases hc : p c
    · simp only [hc, if_true]
      rw [takeWhile_append_nil hB A]
    · simp [hc]

theorem dropWhile_append_ne {p : Char → Bool} {A : List Char} (hA : A.dropWhile p ≠ [])
    (B : List Char) : (A ++ B).dropWhile p = A.dropWhile p ++ B := by
  rw [List.dropWhile_append, if_neg]
  simpa using hA

theorem dropWhile_append_all {p : Char → Bool} {A : List Char} (hA : ∀ c ∈ A, p c = true)
    (B : List Char) : (A ++ B).dropWhile p = B.dropWhile p := by
  rw [List.dropWhile_append, if_pos]
  rw [List.isEmpty_iff, List.dropWhile_eq_nil_iff]
  exact fun x hx => hA x hx

theorem matchCI_decomp : ∀ {p cs cap rest : List Char}, matchCI p cs = some (cap, rest) →
    cs = cap ++ rest ∧ cap.map Char.toLower = p
  | [], cs, cap, rest, h => by
    unfold matchCI at h
    cases h
    exact ⟨rfl, rfl⟩
  | p :: ps, [], cap, rest, h => by
    unfold matchCI at h
    cases h
  | p :: ps, c :: cs, cap, rest, h => by
    unfold matchCI at h
    by_cases hc : c.toLower = p
    · rw [if_pos hc] at h
      cases hm : matchCI ps cs with
      | none =>
        rw [hm] at h
        cases h
      | some r =>
        obtain ⟨r1, r2⟩ := r
        rw [hm] at h
        simp only [Option.map_some', Option.some.injEq, Prod.mk.injEq] at h
        obtain ⟨h1, h2⟩ := h
        obtain ⟨hcs, hmap⟩ := matchCI_decomp hm
        subst h1
        subst h2
        constructor
        · rw [hcs]
          rfl
        · rw [List.map_cons, hmap, hc]
    · rw [if_neg hc] at h
      cases h

theorem matchCI_append : ∀ {p cs cap rest : List Char}, matchCI p cs = some (cap, rest) →
    ∀ T, matchCI p (cs ++ T) = some (cap, rest ++ T)
  | [], cs, cap, rest, h, T => by
    unfold matchCI at h ⊢
    cases h
    rfl
  | p :: ps, [], cap, rest, h, T => by
    unfold matchCI at h
    cases h
  | p :: ps, c :: cs, cap, rest, h, T => by
    unfold matchCI at h
    show (if c.toLower = p then
      Option.map (fun r => (c :: r.1, r.2)) (matchCI ps (cs ++ T)) else none) = some (cap, rest ++ T)
    by_cases hc : c.toLower = p
    · rw [if_pos hc] at h ⊢
      cases hm : matchCI ps cs with
      | none =>
        rw [hm] at h
        cases h
      | some r =>
        obtain ⟨r1, r2⟩ := r
        rw [hm] at h
        simp only [Option.map_some', Option.some.injEq, Prod.mk.injEq] at h
        obtain ⟨h1, h2⟩ := h
        subst h1
        subst h2
        rw [matchCI_append hm T]
        rfl
    · rw [if_neg hc] at h
      cases h

theorem matchCI_none_of_head {p : Char} {ps : List Char} {c : Char} {cs : List Char}
    (hc : ¬ c.toLower = p) : matchCI (p :: ps) (c :: cs) = none := by
  unfold matchCI
  rw [if_neg hc]

/-! ## C4/C10 machinery II: the marker matcher -/

theorem matchMarkerWord_decomp {cs cap rest : List Char}
    (h : matchMarkerWord cs = some (cap, rest)) :
    cs = cap ++ rest ∧
    (cap.map Char.toLower = "summary".data ∨ cap.map Char.toLower = "resume".data ∨
     cap.map Char.toLower = "cover letter".data) := by
  unfold matchMarkerWord at h
  cases h1 : matchCI "summary".data cs with
  | some r =>
    rw [h1] at h
    cases h
    exact ⟨(matchCI_decomp h1).1, Or.inl (matchCI_decomp h1).2⟩
  | none =>
    rw [h1] at h
    cases h2 : matchCI "resume".data cs with
    | some r =>
      rw [h2] at h
      cases h
      exact ⟨(matchCI_decomp h2).1, Or.inr (Or.inl (matchCI_decomp h2).2)⟩
    | none =>
      rw [h2] at h
      exact ⟨(matchCI_decomp h).1, Or.inr (Or.inr (matchCI_decomp h).2)⟩

theorem matchCI_ne_first {p : Char} {ps : List Char} {q : Char} {qs cs cap rest : List Char}
    (h : matchCI (q :: qs) cs = some (cap, rest)) (hpq : ¬ p = q) (T : List Char) :
    matchCI (p :: ps) (cs ++ T) = none := by
  obtain ⟨hcs, hmap⟩ := matchCI_decomp h
  cases cap with
  | nil => cases hmap
  | cons c cap2 =>
    rw [List.map_cons] at hmap
    obtain ⟨h1, -⟩ := List.cons.inj hmap
    rw [hcs]
    have : (c :: cap2 ++ rest) ++ T = c :: (cap2 ++ rest ++ T) := by simp
    rw [this]
    apply matchCI_none_of_head
    rw [h1]
    exact fun hh => hpq hh.symm

theorem matchMarkerWord_append {cs cap rest : List Char}
    (h : matchMarkerWord cs = some (cap, rest)) (T : List Char) :
    matchMarkerWord (cs ++ T) = some (cap, rest ++ T) := by
  unfold matchMarkerWord at h ⊢
  cases h1 : matchCI "summary".data cs with
  | some r =>
    obtain ⟨r1, r2⟩ := r
    rw [h1] at h
    cases h
    rw [matchCI_append h1 T]
  | none =>
    rw [h1] at h
    cases h2 : matchCI "resume".data cs with
    | some r =>
      obtain ⟨r1, r2⟩ := r
      rw [h2] at h
      cases h
      rw [matchCI_ne_first h2 (by decide) T, matchCI_append h2 T]
    | none =>
      rw [h2] at h
      rw [matchCI_ne_first h (by decide) T, matchCI_ne_first h (by decide) T,
        matchCI_append h T]

theorem matchMarkerWord_len {cs cap rest : List Char}
    (h : matchMarkerWord cs = some (cap, rest)) : cap ≠ [] := by
  obtain ⟨-, hp⟩ := matchMarkerWord_decomp h
  intro he
  subst he
  rcases hp with hp | hp | hp <;> cases hp

theorem matchTail_spec {cs4 rest : List Char} (h : matchTail cs4 = some rest) :
    ¬ 2 < (cs4.takeWhile (fun d => d = '*')).length ∧
    wsDollar (let cs5 := (cs4.drop (cs4.takeWhile (fun d => d = '*')).length).dropWhile isSpaceTab
              if cs5.head? = some ':' then cs5.tail else cs5) = some rest := by
  unfold matchTail at h
  by_cases hm : 2 < (cs4.takeWhile (fun d => d = '*')).length
  · rw [if_pos hm] at h
    cases h
  · rw [if_neg hm] at h
    exact ⟨hm, h⟩

theorem matchCore_spec {cs2 cap rest : List Char} (h : matchCore cs2 = some (cap, rest)) :
    ∃ cs4, ¬ 2 < (cs2.takeWhile (fun d => d = '*')).length ∧
      matchMarkerWord (cs2.drop (cs2.takeWhile (fun d => d = '*')).length) = some (cap, cs4) ∧
      matchTail cs4 = some rest := by
  unfold matchCore at h
  by_cases hn : 2 < (cs2.takeWhile (fun d => d = '*')).length
  · rw [if_pos hn] at h
    cases h
  · rw [if_neg hn] at h
    cases hm : matchMarkerWord (cs2.drop (cs2.takeWhile (fun d => d = '*')).length) with
    | none =>
      rw [hm] at h
      cases h
    | some r =>
      obtain ⟨cap2, cs4⟩ := r
      rw [hm] at h
      dsimp only at h
      cases ht : matchTail cs4 with
      | none =>
        rw [ht] at h
        cases h
      | some rest2 =>
        rw [ht] at h
        cases h
        exact ⟨cs4, hn, rfl, ht⟩

theorem matchAt_spec {cs cap rest : List Char} (h : matchAt cs = some (cap, rest)) :
    matchCore (hashStrip (cs.dropWhile isSpaceTab)) = some (cap, rest) := h

theorem matchCore_nil : matchCore [] = none := by decide

theorem matchAt_nil : matchAt [] = none := by decide

theorem hashStrip_suffix (cs1 : List Char) : hashStrip cs1 <:+ cs1 := by
  unfold hashStrip
  split_ifs
  · exact (List.dropWhile_suffix _).trans (List.dropWhile_suffix _)
  · exact List.suffix_refl _

theorem matchTail_suffix {cs4 rest : List Char} (h : matchTail cs4 = some rest) :
    rest <:+ cs4 := by
  obtain ⟨-, hw⟩ := matchTail_spec h
  simp only at hw
  have h6 := wsDollar_suffix hw
  have h5tail : ((cs4.drop (cs4.takeWhile (fun d => d = '*')).length).dropWhile
      isSpaceTab).tail <:+ (cs4.drop (cs4.takeWhile (fun d => d = '*')).length).dropWhile
      isSpaceTab := List.tail_suffix _
  have h5 : (cs4.drop (cs4.takeWhile (fun d => d = '*')).length).dropWhile isSpaceTab <:+ cs4 :=
    (List.dropWhile_suffix _).trans (List.drop_suffix _ _)
  split_ifs at h6 with hcol
  · exact (h6.trans h5tail).trans h5
  · exact h6.trans h5

theorem matchCore_suffix {cs2 cap rest : List Char} (h : matchCore cs2 = some (cap, rest)) :
    rest <:+ cs2 ∧ rest.length < cs2.length := by
  obtain ⟨cs4, -, hm, ht⟩ := matchCore_spec h
  obtain ⟨hdec, -⟩ := matchMarkerWord_decomp hm
  have hcap : cap ≠ [] := matchMarkerWord_len hm
  have h1 : rest <:+ cs4 := matchTail_suffix ht
  have h2 : cs4 <:+ cs2.drop (cs2.takeWhile (fun d => d = '*')).length := ⟨cap, hdec.symm⟩
  have h3 : cs2.drop (cs2.takeWhile (fun d => d = '*')).length <:+ cs2 := List.drop_suffix _ _
  refine ⟨(h1.trans h2).trans h3, ?_⟩
  have l1 : rest.length ≤ cs4.length := h1.length_le
  have l2 : cs4.length < (cs2.drop (cs2.takeWhile (fun d => d = '*')).length).length := by
    rw [hdec, List.length_append]
    cases cap with
    | nil => exact absurd rfl hcap
    | cons a b => simp
  have l3 := h3.length_le
  omega

theorem matchAt_suffix {cs cap rest : List Char} (h : matchAt cs = some (cap, rest)) :
    rest <:+ cs ∧ rest.length < cs.length := by
  obtain ⟨h1, h2⟩ := matchCore_suffix (matchAt_spec h)
  have h3 : hashStrip (cs.dropWhile isSpaceTab) <:+ cs :=
    (hashStrip_suffix _).trans (List.dropWhile_suffix _)
  exact ⟨h1.trans h3, Nat.lt_of_lt_of_le h2 h3.length_le⟩

/-- `[ \t]` indentation in front of a candidate line is absorbed by the
pattern: matching is unchanged. -/
theorem matchAt_indent {I : List Char} (hI : ∀ c ∈ I, isSpaceTab c = true) (X : List Char) :
    matchAt (I ++ X) = matchAt X := by
  unfold matchAt
  rw [dropWhile_append_all hI]

/-! ## C4/C10 machinery III: extension lemmas

A line that the pattern matches completely keeps matching when followed
by trailing whitespace or by a newline and arbitrary text: this is what
lets the scanner's失 failure at a position refute marker-ness of the line
there. -/

/-- The continuations we append: pure whitespace, or a newline followed
by anything. -/
def wsOrNl (S : List Char) : Prop :=
  (∀ c ∈ S, isPySpace c = true) ∨ ∃ T, S = '\n' :: T

theorem star_takeWhile_nil {S : List Char} (hS : wsOrNl S) :
    S.takeWhile (fun d => d = '*') = [] := by
  rcases hS with hS | ⟨T, rfl⟩
  · cases S with
    | nil => rfl
    | cons c S2 =>
      rw [List.takeWhile_cons, if_neg]
      intro hc
      rw [decide_eq_true_eq] at hc
      subst hc
      have := hS '*' (List.mem_cons_self _ _)
      cases this
  · rw [List.takeWhile_cons, if_neg]
    intro hc
    rw [decide_eq_true_eq] at hc
    cases hc

theorem head?_append_ne {A : List Char} (hA : A ≠ []) (B : List Char) :
    (A ++ B).head? = A.head? := by
  cases A with
  | nil => exact absurd rfl hA
  | cons a t => rfl

theorem tail_append_ne {A : List Char} (hA : A ≠ []) (B : List Char) :
    (A ++ B).tail = A.tail ++ B := by
  cases A with
  | nil => exact absurd rfl hA
  | cons a t => rfl

theorem matchTail_extend {cs4 : List Char} (h : matchTail cs4 = some []) (S : List Char)
    (hS : wsOrNl S) :
    ∃ r, matchTail (cs4 ++ S) = some r ∧ ((∀ c ∈ S, isPySpace c = true) → r = []) := by
  obtain ⟨hm, hw⟩ := matchTail_spec h
  simp only at hw
  have hmle : (cs4.takeWhile (fun d => d = '*')).length ≤ cs4.length :=
    (List.takeWhile_sublist _).length_le
  unfold matchTail
  rw [takeWhile_append_nil (star_takeWhile_nil hS), if_neg hm,
    List.drop_append_of_le_length hmle]
  dsimp only
  by_cases h5 : (cs4.drop (cs4.takeWhile (fun d => d = '*')).length).dropWhile isSpaceTab = []
  · have hA4 : ∀ c ∈ cs4.drop (cs4.takeWhile (fun d => d = '*')).length, isSpaceTab c = true :=
      List.dropWhile_eq_nil_iff.mp h5
    rw [dropWhile_append_all hA4]
    rcases hS with hws | ⟨T, rfl⟩
    · have hW2 : ∀ c ∈ S.dropWhile isSpaceTab, isPySpace c = true :=
        fun c hc => hws c ((List.dropWhile_suffix _).mem hc)
      have hcol : ¬ (S.dropWhile isSpaceTab).head? = some ':' := by
        cases hx : S.dropWhile isSpaceTab with
        | nil => simp
        | cons c t =>
          simp only [List.head?_cons, Option.some.injEq]
          intro hc
          subst hc
          have := hW2 ':' (by rw [hx]; exact List.mem_cons_self _ _)
          cases this
      rw [if_neg hcol]
      refine ⟨[], wsDollar_of_all ?_, fun _ => rfl⟩
      rw [List.all_eq_true]
      exact hW2
    · have hT : ('\n' :: T).dropWhile isSpaceTab = '\n' :: T := by
        rw [List.dropWhile_cons, if_neg (by decide)]
      rw [hT, if_neg (by
        intro hc
        rw [List.head?_cons, Option.some.injEq] at hc
        exact absurd hc (by decide))]
      cases hwd : wsDollar ('\n' :: T) with
      | none => exact absurd hwd (wsDollar_nl_ne_none [] rfl T)
      | some r =>
        refine ⟨r, rfl, fun hall => ?_⟩
        have : ('\n' :: T).all isPySpace = true := by
          rw [List.all_eq_true]
          exact hall
        rw [wsDollar_of_all this] at hwd
        cases hwd
        rfl
  · rw [dropWhile_append_ne h5]
    rw [head?_append_ne h5]
    have hcs6ws : ∀ cs6 : List Char, wsDollar cs6 = some [] →
        ∀ c ∈ cs6, isPySpace c = true := by
      intro cs6 hc
      rw [← List.all_eq_true]
      exact all_of_wsDollar_nil hc
    by_cases hcol :
        ((cs4.drop (cs4.takeWhile (fun d => d = '*')).length).dropWhile isSpaceTab).head?
          = some ':'
    · rw [if_pos hcol] at hw
      rw [if_pos hcol, tail_append_ne h5]
      rcases hS with hws | ⟨T, rfl⟩
      · refine ⟨[], wsDollar_of_all ?_, fun _ => rfl⟩
        rw [List.all_eq_true]
        intro c hc
        rcases List.mem_append.mp hc with hc | hc
        · exact hcs6ws _ hw c hc
        · exact hws c hc
      · cases hwd : wsDollar
            (((cs4.drop (cs4.takeWhile (fun d => d = '*')).length).dropWhile
              isSpaceTab).tail ++ '\n' :: T) with
        | none => exact absurd hwd (wsDollar_nl_ne_none _ (all_of_wsDollar_nil hw) T)
        | some r =>
          refine ⟨r, rfl, fun hall => ?_⟩
          have : ((((cs4.drop (cs4.takeWhile (fun d => d = '*')).length).dropWhile
              isSpaceTab).tail ++ '\n' :: T)).all isPySpace = true := by
            rw [List.all_eq_true]
            intro c hc
            rcases List.mem_append.mp hc with hc | hc
            · exact hcs6ws _ hw c hc
            · exact hall c hc
          rw [wsDollar_of_all this] at hwd
          cases hwd
          rfl
    · rw [if_neg hcol] at hw
      rw [if_neg hcol]
      rcases hS with hws | ⟨T, rfl⟩
      · refine ⟨[], wsDollar_of_all ?_, fun _ => rfl⟩
        rw [List.all_eq_true]
        intro c hc
        rcases List.mem_append.mp hc with hc | hc
        · exact hcs6ws _ hw c hc
        · exact hws c hc
      · cases hwd : wsDollar
            ((cs4.drop (cs4.takeWhile (fun d => d = '*')).length).dropWhile
              isSpaceTab ++ '\n' :: T) with
        | none => exact absurd hwd (wsDollar_nl_ne_none _ (all_of_wsDollar_nil hw) T)
        | some r =>
          refine ⟨r, rfl, fun hall => ?_⟩
          have : (((cs4.drop (cs4.takeWhile (fun d => d = '*')).length).dropWhile
              isSpaceTab ++ '\n' :: T)).all isPySpace = true := by
            rw [List.all_eq_true]
            intro c hc
            rcases List.mem_append.mp hc with hc | hc
            · exact hcs6ws _ hw c hc
            · exact hall c hc
          rw [wsDollar_of_all this] at hwd
          cases hwd
          rfl

theorem matchCore_extend {cs2 cap : List Char} (h : matchCore cs2 = some (cap, []))
    (S : List Char) (hS : wsOrNl S) :
    ∃ r, matchCore (cs2 ++ S) = some (cap, r) ∧ ((∀ c ∈ S, isPySpace c = true) → r = []) := by
  obtain ⟨cs4, hn, hm, ht⟩ := matchCore_spec h
  have hnle : (cs2.takeWhile (fun d => d = '*')).length ≤ cs2.length :=
    (List.takeWhile_sublist _).length_le
  obtain ⟨r, hr, hrc⟩ := matchTail_extend ht S hS
  unfold matchCore
  rw [takeWhile_append_nil (star_takeWhile_nil hS), if_neg hn,
    List.drop_append_of_le_length hnle, matchMarkerWord_append hm S]
  dsimp only
  rw [hr]
  exact ⟨r, rfl, hrc⟩

theorem matchAt_extend {cs cap : List Char} (h : matchAt cs = some (cap, []))
    (S : List Char) (hS : wsOrNl S) :
    ∃ r, matchAt (cs ++ S) = some (cap, r) ∧ ((∀ c ∈ S, isPySpace c = true) → r = []) := by
  have hA : cs.dropWhile isSpaceTab ≠ [] := by
    intro he
    unfold matchAt at h
    rw [he] at h
    cases h
  unfold matchAt at h ⊢
  rw [dropWhile_append_ne hA]
  unfold hashStrip at h ⊢
  rw [head?_append_ne hA]
  by_cases hsh : (cs.dropWhile isSpaceTab).head? = some '#'
  · rw [if_pos hsh] at h ⊢
    have hH : (cs.dropWhile isSpaceTab).dropWhile (fun d => d = '#') ≠ [] := by
      intro he
      rw [he] at h
      cases h
    rw [dropWhile_append_ne hH]
    have hH2 : ((cs.dropWhile isSpaceTab).dropWhile (fun d => d = '#')).dropWhile
        isPySpace ≠ [] := by
      intro he
      rw [he] at h
      cases h
    rw [dropWhile_append_ne hH2]
    exact matchCore_extend h S hS
  · rw [if_neg hsh] at h ⊢
    exact matchCore_extend h S hS

theorem matchAt_extend_nl {cs cap : List Char} (h : matchAt cs = some (cap, []))
    (T : List Char) : matchAt (cs ++ '\n' :: T) ≠ none := by
  obtain ⟨r, hr, -⟩ := matchAt_extend h ('\n' :: T) (Or.inr ⟨T, rfl⟩)
  rw [hr]
  exact fun hc => by cases hc

theorem matchAt_extend_wsall {cs cap : List Char} (h : matchAt cs = some (cap, []))
    {W : List Char} (hW : ∀ c ∈ W, isPySpace c = true) :
    matchAt (cs ++ W) = some (cap, []) := by
  obtain ⟨r, hr, hrc⟩ := matchAt_extend h W (Or.inl hW)
  rw [hr, hrc hW]

/-! ## C4/C10 machinery IV: scanner characterisation and line safety -/

theorem isMarkerLine_spec {L : List Char} :
    isMarkerLine L = true ↔ ∃ cap, matchAt L = some (cap, []) := by
  unfold isMarkerLine
  cases h : matchAt L with
  | none => simp
  | some r =>
    obtain ⟨cap, rest⟩ := r
    cases rest with
    | nil => simp
    | cons a t => simp

/-- When the scanner finds nothing, the pattern fails at the current
position (if it is a line start) and at every later line start. -/
theorem findMarker_none_spec : ∀ {cs : List Char} {b : Bool}, findMarker cs b = none →
    (b = true → matchAt cs = none) ∧ ∀ X Y : List Char, cs = X ++ '\n' :: Y → matchAt Y = none
  | [], b, _ => by
    refine ⟨fun _ => matchAt_nil, fun X Y hXY => ?_⟩
    exact absurd hXY (by simp)
  | c :: cs, b, h => by
    unfold findMarker at h
    cases hm : (if b then matchAt (c :: cs) else none) with
    | some r =>
      rw [hm] at h
      cases h
    | none =>
      rw [hm] at h
      cases hf : findMarker cs (c = '\n') with
      | some r =>
        rw [hf] at h
        cases h
      | none =>
        obtain ⟨ih1, ih2⟩ := findMarker_none_spec hf
        refine ⟨fun hb => ?_, fun X Y hXY => ?_⟩
        · rw [hb, if_pos rfl] at hm
          exact hm
        · cases X with
          | nil =>
            simp only [List.nil_append, List.cons.injEq] at hXY
            obtain ⟨hc, hcs⟩ := hXY
            subst hcs
            exact ih1 (by rw [hc]; simp)
          | cons x X2 =>
            simp only [List.cons_append, List.cons.injEq] at hXY
            obtain ⟨-, hcs⟩ := hXY
            exact ih2 X2 Y hcs

/-- When the scanner succeeds, the input splits as `pre ++ tail0` with
the match at `tail0`, `pre` empty or ending in a newline, and the
pattern failing at the start (if `pre` is nonempty) and at every line
start strictly inside `pre`. -/
theorem findMarker_some_spec : ∀ {cs : List Char} {b : Bool} {pre cap rest : List Char},
    findMarker cs b = some (pre, cap, rest) →
    ∃ tail0, cs = pre ++ tail0 ∧ matchAt tail0 = some (cap, rest) ∧
      (pre = [] → b = true) ∧
      (pre = [] ∨ ∃ X, pre = X ++ ['\n']) ∧
      (b = true → pre ≠ [] → matchAt cs = none) ∧
      (∀ X Y : List Char, pre = X ++ '\n' :: Y → Y ≠ [] → matchAt (Y ++ tail0) = none)
  | [], b, pre, cap, rest, h => by
    unfold findMarker at h
    cases hb : b with
    | false =>
      rw [hb] at h
      cases h
    | true =>
      rw [hb, if_pos rfl, matchAt_nil] at h
      cases h
  | c :: cs, b, pre, cap, rest, h => by
    unfold findMarker at h
    cases hm : (if b then matchAt (c :: cs) else none) with
    | some r =>
      rw [hm] at h
      obtain ⟨rcap, rrest⟩ := r
      simp only [Option.some.injEq, Prod.mk.injEq] at h
      obtain ⟨h1, h2, h3⟩ := h
      subst h1
      subst h2
      subst h3
      have hb : b = true := by
        cases hbb : b with
        | false => rw [hbb] at hm; cases hm
        | true => rfl
      rw [hb, if_pos rfl] at hm
      refine ⟨c :: cs, rfl, hm, fun _ => hb, Or.inl rfl, fun _ hne => absurd rfl hne,
        fun X Y hXY => absurd hXY (by simp)⟩
    | none =>
      rw [hm] at h
      cases hf : findMarker cs (c = '\n') with
      | none =>
        rw [hf] at h
        cases h
      | some r =>
        obtain ⟨pre2, cap2, rest2⟩ := r
        rw [hf] at h
        simp only [Option.map_some', Option.some.injEq, Prod.mk.injEq] at h
        obtain ⟨h1, h2, h3⟩ := h
        subst h1
        subst h2
        subst h3
        obtain ⟨tail0, ihcs, ihmatch, ihpreb, ihshape, ihstart, ihlines⟩ :=
          findMarker_some_spec hf
        refine ⟨tail0, by rw [List.cons_append, ← ihcs], ihmatch,
          fun hc => absurd hc (by simp), ?_, fun hb _ => ?_, fun X Y hXY hY => ?_⟩
        · right
          rcases ihshape with hp | ⟨X, hX⟩
          · have hc : decide (c = '\n') = true := ihpreb hp
            rw [decide_eq_true_eq] at hc
            subst hc
            subst hp
            exact ⟨[], rfl⟩
          · subst hX
            exact ⟨c :: X, rfl⟩
        · rw [hb, if_pos rfl] at hm
          exact hm
        · cases X with
          | nil =>
            simp only [List.nil_append, List.cons.injEq] at hXY
            obtain ⟨hc, hpre⟩ := hXY
            subst hpre
            have := ihstart (by rw [hc]; simp) hY
            rw [ihcs] at this
            exact this
          | cons x X2 =>
            simp only [List.cons_append, List.cons.injEq] at hXY
            obtain ⟨-, hpre⟩ := hXY
            exact ihlines X2 Y hpre hY

theorem pyLines_ne_nil (cs : List Char) : pyLines cs ≠ [] := by
  unfold pyLines
  induction cs with
  | nil => simp [splitChar]
  | cons c t ih =>
    unfold splitChar
    by_cases hc : c = '\n'
    · rw [if_pos hc]
      simp
    · rw [if_neg hc]
      cases hx : splitChar '\n' t with
      | nil => simp
      | cons l ls => simp

/-- The first line of `cs`, with what follows it. -/
theorem pyLines_first (cs : List Char) :
    ∃ Z, cs = (pyLines cs).headD [] ++ Z ∧
      ((Z = [] ∧ (pyLines cs).tail = []) ∨ ∃ t, Z = '\n' :: t ∧ (pyLines cs).tail = pyLines t) := by
  induction cs with
  | nil => exact ⟨[], rfl, Or.inl ⟨rfl, rfl⟩⟩
  | cons c t ih =>
    by_cases hc : c = '\n'
    · subst hc
      refine ⟨'\n' :: t, rfl, Or.inr ⟨t, rfl, ?_⟩⟩
      show (splitChar '\n' ('\n' :: t)).tail = _
      unfold splitChar
      rw [if_pos rfl]
      rfl
    · obtain ⟨Z, hZ, hsh⟩ := ih
      have hsplit : pyLines (c :: t) = (c :: (pyLines t).headD []) :: (pyLines t).tail := by
        show splitChar '\n' (c :: t) = _
        unfold splitChar
        rw [if_neg hc]
        cases hx : splitChar '\n' t with
        | nil => exact absurd hx (pyLines_ne_nil t)
        | cons l ls =>
          have hx2 : pyLines t = l :: ls := hx
          rw [hx2]
          rfl
      refine ⟨Z, ?_, ?_⟩
      · rw [hsplit]
        show c :: t = (c :: (pyLines t).headD []) ++ Z
        rw [List.cons_append, ← hZ]
      · rw [hsplit]
        exact hsh

/-- Every line of `cs` is either the first line (followed by the end or
a newline) or preceded by a newline (and followed by the end or a
newline). -/
theorem lines_decomp : ∀ {cs L : List Char}, L ∈ pyLines cs →
    (∃ Z, cs = L ++ Z ∧ (Z = [] ∨ ∃ t, Z = '\n' :: t)) ∨
    (∃ X Z, cs = X ++ '\n' :: L ++ Z ∧ (Z = [] ∨ ∃ t, Z = '\n' :: t))
  | cs, L, hL => by
    obtain ⟨Z, hZ, hsh⟩ := pyLines_first cs
    have hne := pyLines_ne_nil cs
    cases hx : pyLines cs with
    | nil => exact absurd hx hne
    | cons l0 ls =>
      rw [hx] at hL
      rcases List.mem_cons.mp hL with rfl | hLtail
      · left
        refine ⟨Z, ?_, ?_⟩
        · rw [hZ, hx]
          rfl
        · rcases hsh with ⟨hz, -⟩ | ⟨t, hz, -⟩
          · exact Or.inl hz
          · exact Or.inr ⟨t, hz⟩
      · rcases hsh with ⟨-, htail⟩ | ⟨t, hzt, htail⟩
        · rw [hx] at htail
          simp only [List.tail_cons] at htail
          subst htail
          cases hLtail
        · rw [hx] at htail
          simp only [List.tail_cons] at htail
          subst htail
          rcases lines_decomp hLtail with ⟨Z2, hZ2, hsh2⟩ | ⟨X2, Z2, hZ2, hsh2⟩
          · right
            refine ⟨(pyLines cs).headD [], Z2, ?_, hsh2⟩
            conv_lhs => rw [hZ, hzt, hZ2]
            simp [List.append_assoc]
          · right
            refine ⟨(pyLines cs).headD [] ++ '\n' :: X2, Z2, ?_, hsh2⟩
            conv_lhs => rw [hZ, hzt, hZ2]
            simp [List.append_assoc]
  termination_by cs L _ => cs.length
  decreasing_by
    rw [hZ, hzt]
    simp only [List.length_append, List.length_cons]
    omega

theorem splitChar_ne_nil (sep : Char) : ∀ (cs : List Char), splitChar sep cs ≠ []
  | [] => by
    unfold splitChar
    simp
  | c :: t => by
    unfold splitChar
    by_cases hc : c = sep
    · rw [if_pos hc]
      simp
    · rw [if_neg hc]
      cases hx : splitChar sep t with
      | nil => exact absurd hx (splitChar_ne_nil sep t)
      | cons l ls => simp

theorem splitChar_no_sep (sep : Char) : ∀ (cs : List Char), ∀ L ∈ splitChar sep cs, sep ∉ L
  | [], L, hL => by
    unfold splitChar at hL
    rcases List.mem_singleton.mp hL with rfl
    exact List.not_mem_nil sep
  | c :: t, L, hL => by
    unfold splitChar at hL
    by_cases hc : c = sep
    · rw [if_pos hc] at hL
      rcases List.mem_cons.mp hL with rfl | hL2
      · exact List.not_mem_nil sep
      · exact splitChar_no_sep sep t L hL2
    · rw [if_neg hc] at hL
      cases hx : splitChar sep t with
      | nil => exact absurd hx (splitChar_ne_nil sep t)
      | cons l ls =>
        rw [hx] at hL
        rcases List.mem_cons.mp hL with rfl | hL2
        · intro hmem
          rcases List.mem_cons.mp hmem with rfl | hmem2
          · exact hc rfl
          · exact splitChar_no_sep sep t l (by rw [hx]; exact List.mem_cons_self _ _) hmem2
        · exact splitChar_no_sep sep t L (by rw [hx]; exact List.mem_cons.mpr (Or.inr hL2))

theorem pyLines_no_nl {cs L : List Char} (hL : L ∈ pyLines cs) : '\n' ∉ L :=
  splitChar_no_sep '\n' cs L hL

/-! ## C4/C10 machinery V: line safety of scanned regions -/

/-- In a region where the scanner failed at the start and at every line
start, no line is a marker line. -/
theorem safe_of_region {cs : List Char} (h1 : matchAt cs = none)
    (h2 : ∀ X Y : List Char, cs = X ++ '\n' :: Y → matchAt Y = none) :
    ∀ L ∈ pyLines cs, isMarkerLine L = false := by
  intro L hL
  by_contra hcon
  rw [Bool.not_eq_false, isMarkerLine_spec] at hcon
  obtain ⟨cap, hcap⟩ := hcon
  rcases lines_decomp hL with ⟨Z, hZ, hsh⟩ | ⟨X, Z, hZ, hsh⟩
  · rcases hsh with rfl | ⟨t, rfl⟩
    · rw [List.append_nil] at hZ
      rw [hZ, hcap] at h1
      cases h1
    · rw [hZ] at h1
      exact matchAt_extend_nl hcap t h1
  · have hform : cs = X ++ '\n' :: (L ++ Z) := by
      rw [hZ]
      simp [List.append_assoc]
    have hnone := h2 X (L ++ Z) hform
    rcases hsh with rfl | ⟨t, rfl⟩
    · rw [List.append_nil, hcap] at hnone
      cases hnone
    · exact matchAt_extend_nl hcap t hnone

/-- No line of the text skipped before a match is a marker line. -/
theorem safe_of_pre {pre tail0 : List Char}
    (hshape : pre = [] ∨ ∃ X, pre = X ++ ['\n'])
    (hstart : pre ≠ [] → matchAt (pre ++ tail0) = none)
    (hlines : ∀ X Y : List Char, pre = X ++ '\n' :: Y → Y ≠ [] → matchAt (Y ++ tail0) = none) :
    ∀ L ∈ pyLines pre, isMarkerLine L = false := by
  intro L hL
  by_contra hcon
  rw [Bool.not_eq_false, isMarkerLine_spec] at hcon
  obtain ⟨cap, hcap⟩ := hcon
  have hLne : L ≠ [] := by
    intro he
    rw [he, matchAt_nil] at hcap
    cases hcap
  have hnl := pyLines_no_nl hL
  rcases lines_decomp hL with ⟨Z, hZ, hsh⟩ | ⟨X, Z, hZ, hsh⟩
  · have hpre : pre ≠ [] := by
      rw [hZ]
      cases L with
      | nil => exact absurd rfl hLne
      | cons a t => simp
    rcases hsh with rfl | ⟨t, rfl⟩
    · rw [List.append_nil] at hZ
      rcases hshape with hp | ⟨X, hX⟩
      · exact hpre hp
      · apply hnl
        rw [← hZ, hX]
        exact List.mem_append.mpr (Or.inr (List.mem_singleton.mpr rfl))
    · have h0 := hstart hpre
      rw [hZ, List.append_assoc] at h0
      exact matchAt_extend_nl hcap (t ++ tail0) h0
  · have hform : pre = X ++ '\n' :: (L ++ Z) := by
      rw [hZ]
      simp [List.append_assoc]
    have hYne : L ++ Z ≠ [] := by
      cases L with
      | nil => exact absurd rfl hLne
      | cons a t => simp
    have h0 := hlines X (L ++ Z) hform hYne
    rcases hsh with rfl | ⟨t, rfl⟩
    · -- then L is the final segment of pre; but pre ends in a newline
      rcases hshape with hp | ⟨X2, hX2⟩
      · rw [hp] at hform
        exact absurd hform.symm (by simp)
      · rcases List.eq_nil_or_concat L with rfl | ⟨L2, c, rfl⟩
        · exact absurd rfl hLne
        · apply hnl
          have h1 : pre = (X ++ '\n' :: L2) ++ [c] := by
            rw [hform]
            simp [List.append_assoc]
          have h2 : some c = some '\n' := by
            rw [← List.getLast?_concat (l := X ++ '\n' :: L2), ← h1, hX2,
              List.getLast?_concat]
          rw [Option.some.injEq] at h2
          subst h2
          simp [List.concat_eq_append]
    · rw [List.append_assoc] at h0
      exact matchAt_extend_nl hcap (t ++ tail0) h0

theorem isPySpace_toLower_fixed {c : Char} (h : isPySpace c = true) : c.toLower = c := by
  unfold isPySpace at h
  simp only [Bool.or_eq_true, decide_eq_true_eq] at h
  rcases h with ((((rfl | rfl) | rfl) | rfl) | rfl) | rfl <;> decide

theorem map_toUpper_toLower : ∀ (cap : List Char),
    cap.map Char.toUpper = (cap.map Char.toLower).map Char.toUpper
  | [] => rfl
  | c :: t => by
    simp only [List.map_cons, List.cons.injEq]
    exact ⟨toUpper_of_toLower rfl, map_toUpper_toLower t⟩

theorem pyStrip_eq_self_of_ends {cs : List Char}
    (hhead : ∀ c, cs.head? = some c → isPySpace c = false)
    (hlast : ∀ c, cs.getLast? = some c → isPySpace c = false) : pyStrip cs = cs := by
  unfold pyStrip
  rw [dropWhile_eq_self_of_head _ _ hhead]
  rw [dropWhile_eq_self_of_head _ _ (by
    intro c hc
    rw [List.head?_reverse] at hc
    exact hlast c hc)]
  rw [List.reverse_reverse]

theorem strip_of_mapLower {cap p : List Char} (hmap : cap.map Char.toLower = p)
    (hh : ∀ x, p.head? = some x → isPySpace x = false)
    (hl : ∀ x, p.getLast? = some x → isPySpace x = false) : pyStrip cap = cap := by
  apply pyStrip_eq_self_of_ends
  · intro c hc
    have hph : p.head? = some c.toLower := by
      rw [← hmap, List.head?_map, hc]
      rfl
    have h2 := hh _ hph
    by_contra hcon
    rw [Bool.not_eq_false] at hcon
    rw [isPySpace_toLower_fixed hcon] at h2
    rw [hcon] at h2
    cases h2
  · intro c hc
    have hpl : p.getLast? = some c.toLower := by
      rw [← hmap, List.getLast?_map, hc]
      rfl
    have h2 := hl _ hpl
    by_contra hcon
    rw [Bool.not_eq_false] at hcon
    rw [isPySpace_toLower_fixed hcon] at h2
    rw [hcon] at h2
    cases h2

/-- A captured marker part always switches the current section: its
`strip().upper()` is one of the three tokens. -/
theorem upperStrip_cap {cs cap rest : List Char} (h : matchAt cs = some (cap, rest)) :
    upperStrip cap = "SUMMARY".data ∨ upperStrip cap = "RESUME".data ∨
    upperStrip cap = "COVER LETTER".data := by
  obtain ⟨cs4, -, hm, -⟩ := matchCore_spec (matchAt_spec h)
  obtain ⟨-, hp⟩ := matchMarkerWord_decomp hm
  unfold upperStrip pyUpper
  rcases hp with hp | hp | hp
  · left
    rw [strip_of_mapLower hp (by intro x hx; cases hx; rfl) (by intro x hx; cases hx; rfl)]
    rw [map_toUpper_toLower cap, hp]
    decide
  · right
    left
    rw [strip_of_mapLower hp (by intro x hx; cases hx; rfl) (by intro x hx; cases hx; rfl)]
    rw [map_toUpper_toLower cap, hp]
    decide
  · right
    right
    rw [strip_of_mapLower hp (by intro x hx; cases hx; rfl) (by intro x hx; cases hx; rfl)]
    rw [map_toUpper_toLower cap, hp]
    decide

/-! ## C4/C10 machinery VI: parts, the fold, and the accumulation -/

def AllLinesSafe (p : List Char) : Prop := ∀ L ∈ pyLines p, isMarkerLine L = false

/-- What the fold may see: a captured marker token, or a safe body part
that is empty or newline-headed and drawn from the scanned text. -/
def PartOk (t p : List Char) : Prop :=
  (upperStrip p = "SUMMARY".data ∨ upperStrip p = "RESUME".data ∨
    upperStrip p = "COVER LETTER".data) ∨
  (AllLinesSafe p ∧ (p = [] ∨ p.head? = some '\n') ∧ ∀ c ∈ p, c ∈ t)

theorem PartOk_mono {t1 t2 p : List Char} (h : PartOk t1 p) (hsub : ∀ c ∈ t1, c ∈ t2) :
    PartOk t2 p := by
  rcases h with h | ⟨h1, h2, h3⟩
  · exact Or.inl h
  · exact Or.inr ⟨h1, h2, fun c hc => hsub c (h3 c hc)⟩

theorem matchAt_rest_shape {cs cap rest : List Char} (h : matchAt cs = some (cap, rest)) :
    rest = [] ∨ ∃ t, rest = '\n' :: t := by
  obtain ⟨cs4, -, -, ht⟩ := matchCore_spec (matchAt_spec h)
  obtain ⟨-, hw⟩ := matchTail_spec ht
  exact wsDollar_shape hw

theorem pyLines_cons_nl (t : List Char) : pyLines ('\n' :: t) = [] :: pyLines t := by
  show splitChar '\n' ('\n' :: t) = _
  unfold splitChar
  rw [if_pos rfl]
  rfl

theorem pyLines_cons_ne {c : Char} (hc : ¬ c = '\n') (t : List Char) :
    pyLines (c :: t) = (c :: (pyLines t).headD []) :: (pyLines t).tail := by
  show splitChar '\n' (c :: t) = _
  unfold splitChar
  rw [if_neg hc]
  cases hx : splitChar '\n' t with
  | nil => exact absurd hx (pyLines_ne_nil t)
  | cons l ls =>
    have hx2 : pyLines t = l :: ls := hx
    rw [hx2]
    rfl

theorem pyLines_append_cons : ∀ (X Y : List Char),
    pyLines (X ++ '\n' :: Y) = pyLines X ++ pyLines Y
  | [], Y => by
    rw [List.nil_append, pyLines_cons_nl]
    rfl
  | c :: X, Y => by
    by_cases hc : c = '\n'
    · subst hc
      rw [List.cons_append, pyLines_cons_nl, pyLines_cons_nl, pyLines_append_cons X Y]
      rfl
    · rw [List.cons_append, pyLines_cons_ne hc, pyLines_cons_ne hc, pyLines_append_cons X Y]
      cases hx : pyLines X with
      | nil => exact absurd hx (pyLines_ne_nil X)
      | cons h t => rfl

theorem append_lines_safe {a p : List Char}
    (ha : AllLinesSafe a) (hp : AllLinesSafe p) (hph : p = [] ∨ p.head? = some '\n') :
    AllLinesSafe (a ++ p) := by
  rcases hph with rfl | hph
  · rw [List.append_nil]
    exact ha
  · cases p with
    | nil =>
      rw [List.append_nil]
      exact ha
    | cons c t =>
      simp only [List.head?_cons, Option.some.injEq] at hph
      subst hph
      intro L hL
      rw [pyLines_append_cons] at hL
      rcases List.mem_append.mp hL with h | h
      · exact ha L h
      · apply hp
        rw [pyLines_cons_nl]
        exact List.mem_cons_of_mem _ h

theorem append_head_ok {a p : List Char}
    (hah : a = [] ∨ a.head? = some '\n') (hph : p = [] ∨ p.head? = some '\n') :
    a ++ p = [] ∨ (a ++ p).head? = some '\n' := by
  rcases hah with rfl | hah
  · rw [List.nil_append]
    exact hph
  · cases a with
    | nil => rw [List.nil_append]; exact hph
    | cons c t =>
      right
      rw [List.cons_append]
      exact hah

/-- The accumulated section text: safe lines, newline-headed or empty,
drawn from the scanned text. -/
def GoodAcc (t a : List Char) : Prop :=
  AllLinesSafe a ∧ (a = [] ∨ a.head? = some '\n') ∧ ∀ c ∈ a, c ∈ t

theorem GoodAcc_nil (t : List Char) : GoodAcc t [] :=
  ⟨fun L hL => by
      rcases List.mem_singleton.mp hL with rfl
      decide,
    Or.inl rfl, fun c hc => absurd hc (List.not_mem_nil c)⟩

theorem GoodAcc_append {t a p : List Char} (ha : GoodAcc t a)
    (hp : AllLinesSafe p ∧ (p = [] ∨ p.head? = some '\n') ∧ ∀ c ∈ p, c ∈ t) :
    GoodAcc t (a ++ p) := by
  obtain ⟨ha1, ha2, ha3⟩ := ha
  obtain ⟨hp1, hp2, hp3⟩ := hp
  refine ⟨append_lines_safe ha1 hp1 hp2, append_head_ok ha2 hp2, fun c hc => ?_⟩
  rcases List.mem_append.mp hc with h | h
  · exact ha3 c h
  · exact hp3 c h

theorem foldParts_good {t : List Char} : ∀ (parts : List (List Char)) (cur : Option SKey)
    (s : Sections), (∀ p ∈ parts, PartOk t p) →
    GoodAcc t s.summary → GoodAcc t s.resume → GoodAcc t s.cover_letter →
    GoodAcc t (foldParts parts cur s).summary ∧ GoodAcc t (foldParts parts cur s).resume ∧
      GoodAcc t (foldParts parts cur s).cover_letter
  | [], _, s, _, h1, h2, h3 => ⟨h1, h2, h3⟩
  | p :: ps, cur, s, hp, h1, h2, h3 => by
    have hpp := hp p (List.mem_cons_self _ _)
    have hps : ∀ q ∈ ps, PartOk t q := fun q hq => hp q (List.mem_cons_of_mem _ hq)
    unfold foldParts
    by_cases ha : upperStrip p = "SUMMARY".data
    · rw [if_pos ha]
      exact foldParts_good ps _ s hps h1 h2 h3
    · rw [if_neg ha]
      by_cases hb : upperStrip p = "RESUME".data
      · rw [if_pos hb]
        exact foldParts_good ps _ s hps h1 h2 h3
      · rw [if_neg hb]
        by_cases hc : upperStrip p = "COVER LETTER".data
        · rw [if_pos hc]
          exact foldParts_good ps _ s hps h1 h2 h3
        · rw [if_neg hc]
          have hbody : AllLinesSafe p ∧ (p = [] ∨ p.head? = some '\n') ∧ ∀ c ∈ p, c ∈ t := by
            rcases hpp with (h | h | h) | hbody
            · exact absurd h ha
            · exact absurd h hb
            · exact absurd h hc
            · exact hbody
          cases cur with
          | none => exact foldParts_good ps none s hps h1 h2 h3
          | some k =>
            cases k with
            | summary => exact foldParts_good ps _ _ hps (GoodAcc_append h1 hbody) h2 h3
            | resume => exact foldParts_good ps _ _ hps h1 (GoodAcc_append h2 hbody) h3
            | cover => exact foldParts_good ps _ _ hps h1 h2 (GoodAcc_append h3 hbody)

theorem split_parts_ok : ∀ (fuel : Nat) (cs : List Char), cs.length < fuel →
    (cs = [] ∨ cs.head? = some '\n') →
    ∀ p ∈ pySplitAux fuel cs true, PartOk cs p
  | 0, _, hlen, _, _, _ => absurd hlen (by omega)
  | fuel + 1, cs, hlen, hhead, p, hp => by
    unfold pySplitAux at hp
    cases hfind : findMarker cs true with
    | none =>
      rw [hfind] at hp
      rcases List.mem_singleton.mp hp with rfl
      obtain ⟨h1, h2⟩ := findMarker_none_spec hfind
      exact Or.inr ⟨safe_of_region (h1 rfl) h2, hhead, fun c hc => hc⟩
    | some r =>
      obtain ⟨pre, cap, rest⟩ := r
      rw [hfind] at hp
      obtain ⟨tail0, hcs, hmatch, hpreb, hshape, hstart, hlines⟩ := findMarker_some_spec hfind
      rcases List.mem_cons.mp hp with rfl | hp2
      · refine Or.inr ⟨?_, ?_, ?_⟩
        · exact safe_of_pre hshape (fun hne => by rw [← hcs]; exact hstart rfl hne) hlines
        · rcases hhead with rfl | hh
          · left
            have := List.append_eq_nil.mp hcs.symm
            exact this.1
          · cases hpre : p with
            | nil => exact Or.inl rfl
            | cons a u =>
              right
              rw [hcs, hpre] at hh
              exact hh
        · intro c hc
          rw [hcs]
          exact List.mem_append.mpr (Or.inl hc)
      · rcases List.mem_cons.mp hp2 with rfl | hp3
        · exact Or.inl (upperStrip_cap hmatch)
        · obtain ⟨hsuf, hlt⟩ := matchAt_suffix hmatch
          have htle : tail0.length ≤ cs.length := by
            rw [hcs]
            simp
          have hlen2 : rest.length < fuel := by omega
          have hrsh : rest = [] ∨ rest.head? = some '\n' := by
            rcases matchAt_rest_shape hmatch with h | ⟨t2, ht2⟩
            · exact Or.inl h
            · right
              rw [ht2]
              rfl
          have hok := split_parts_ok fuel rest hlen2 hrsh p hp3
          apply PartOk_mono hok
          intro c hc
          rw [hcs]
          exact List.mem_append.mpr (Or.inr (hsuf.subset hc))

theorem foldParts_cons_none (p : List Char) (ps : List (List Char)) (s : Sections) :
    ∃ cur2, foldParts (p :: ps) none s = foldParts ps cur2 s := by
  by_cases h1 : upperStrip p = "SUMMARY".data
  · refine ⟨some .summary, ?_⟩
    conv_lhs => unfold foldParts
    rw [if_pos h1]
  · by_cases h2 : upperStrip p = "RESUME".data
    · refine ⟨some .resume, ?_⟩
      conv_lhs => unfold foldParts
      rw [if_neg h1, if_pos h2]
    · by_cases h3 : upperStrip p = "COVER LETTER".data
      · refine ⟨some .cover, ?_⟩
        conv_lhs => unfold foldParts
        rw [if_neg h1, if_neg h2, if_pos h3]
      · refine ⟨none, ?_⟩
        conv_lhs => unfold foldParts
        rw [if_neg h1, if_neg h2, if_neg h3]

/-- The three accumulated sections of `format_output` are built from
safe, newline-headed body parts of the normalized text. -/
theorem accOf_good (raw : List Char) :
    GoodAcc (strip_md raw) (accOf raw).summary ∧
    GoodAcc (strip_md raw) (accOf raw).resume ∧
    GoodAcc (strip_md raw) (accOf raw).cover_letter := by
  unfold accOf pySplitMarkers
  unfold pySplitAux
  cases hfind : findMarker (strip_md raw) true with
  | none =>
    rw [foldParts_single]
    exact ⟨GoodAcc_nil _, GoodAcc_nil _, GoodAcc_nil _⟩
  | some r =>
    obtain ⟨pre, cap, rest⟩ := r
    obtain ⟨tail0, hcs, hmatch, hpreb, hshape, hstart, hlines⟩ := findMarker_some_spec hfind
    obtain ⟨cur2, hfold⟩ :=
      foldParts_cons_none pre (cap :: pySplitAux (strip_md raw).length rest true) ⟨[], [], []⟩
    rw [hfold]
    apply foldParts_good _ cur2 ⟨[], [], []⟩ ?_ (GoodAcc_nil _) (GoodAcc_nil _) (GoodAcc_nil _)
    intro p hp
    rcases List.mem_cons.mp hp with rfl | hp2
    · exact Or.inl (upperStrip_cap hmatch)
    · obtain ⟨hsuf, hlt⟩ := matchAt_suffix hmatch
      have htle : tail0.length ≤ (strip_md raw).length := by
        rw [hcs]
        simp
      have hlen2 : rest.length < (strip_md raw).length := by omega
      have hrsh : rest = [] ∨ rest.head? = some '\n' := by
        rcases matchAt_rest_shape hmatch with h | ⟨t2, ht2⟩
        · exact Or.inl h
        · right
          rw [ht2]
          rfl
      have hok := split_parts_ok (strip_md raw).length rest hlen2 hrsh p hp2
      apply PartOk_mono hok
      intro c hc
      rw [hcs]
      exact List.mem_append.mpr (Or.inr (hsuf.subset hc))


/-! ## C4 machinery VII: lines through `str.strip` -/

theorem mem_of_mem_pyLines {cs L : List Char} (hL : L ∈ pyLines cs) : ∀ c ∈ L, c ∈ cs := by
  intro c hc
  rcases lines_decomp hL with ⟨Z, hZ, -⟩ | ⟨X, Z, hZ, -⟩
  · rw [hZ]
    exact List.mem_append.mpr (Or.inl hc)
  · rw [hZ]
    exact List.mem_append.mpr (Or.inl (List.mem_append.mpr (Or.inr (List.mem_cons_of_mem _ hc))))

theorem eq_dropLast_getLastD : ∀ {l : List (List Char)} (d : List Char), l ≠ [] →
    l = l.dropLast ++ [l.getLastD d]
  | [], _, h => absurd rfl h
  | [x], _, _ => rfl
  | x :: y :: t, d, _ => by
    have ih := @eq_dropLast_getLastD (y :: t) x (by simp)
    calc x :: y :: t = x :: ((y :: t).dropLast ++ [(y :: t).getLastD x]) := by rw [← ih]
      _ = (x :: y :: t).dropLast ++ [(x :: y :: t).getLastD d] := by
          simp only [List.getLastD_cons, List.dropLast_cons₂, List.cons_append,
            List.cons.injEq, true_and]

theorem headD_mem {l : List (List Char)} (h : l ≠ []) (d : List Char) : l.headD d ∈ l := by
  cases l with
  | nil => exact absurd rfl h
  | cons x t => exact List.mem_cons_self _ _

theorem getLastD_mem : ∀ {l : List (List Char)}, l ≠ [] → ∀ d : List Char, l.getLastD d ∈ l
  | [], h, _ => absurd rfl h
  | [x], _, d => by simp [List.getLastD_cons]
  | x :: y :: t, _, d => by
    rw [List.getLastD_cons]
    exact List.mem_cons_of_mem _ (getLastD_mem (by simp) x)

/-- Splitting an appended text on newlines: the last line of `X` merges
with the first line of `Y`, everything else is kept. -/
theorem pyLines_append : ∀ (X Y : List Char),
    pyLines (X ++ Y) =
      (pyLines X).dropLast ++
        ((pyLines X).getLastD [] ++ (pyLines Y).headD []) :: (pyLines Y).tail
  | [], Y => by
    rw [List.nil_append]
    cases hx : pyLines Y with
    | nil => exact absurd hx (pyLines_ne_nil Y)
    | cons h t => rfl
  | c :: X, Y => by
    by_cases hc : c = '\n'
    · subst hc
      rw [List.cons_append, pyLines_cons_nl, pyLines_cons_nl, pyLines_append X Y]
      cases hx : pyLines X with
      | nil => exact absurd hx (pyLines_ne_nil X)
      | cons h t => simp [List.getLastD_cons]
    · rw [List.cons_append, pyLines_cons_ne hc (X ++ Y), pyLines_cons_ne hc X,
        pyLines_append X Y]
      cases hx : pyLines X with
      | nil => exact absurd hx (pyLines_ne_nil X)
      | cons h t =>
        cases t with
        | nil => simp
        | cons h2 t2 => simp [List.getLastD_cons]

/-- `str.strip` decomposed: the original text is all-whitespace padding
around the stripped text. -/
theorem pyStrip_decomp (a : List Char) :
    a = a.takeWhile isPySpace ++ pyStrip a ++
        ((a.dropWhile isPySpace).reverse.takeWhile isPySpace).reverse ∧
    (∀ c ∈ a.takeWhile isPySpace, isPySpace c = true) ∧
    (∀ c ∈ ((a.dropWhile isPySpace).reverse.takeWhile isPySpace).reverse,
      isPySpace c = true) := by
  refine ⟨?_, fun c hc => List.mem_takeWhile_imp hc,
    fun c hc => List.mem_takeWhile_imp (List.mem_reverse.mp hc)⟩
  conv_lhs => rw [← List.takeWhile_append_dropWhile isPySpace a]
  rw [List.append_assoc]
  congr 1
  conv_lhs => rw [← List.reverse_reverse (a.dropWhile isPySpace),
    ← List.takeWhile_append_dropWhile isPySpace (a.dropWhile isPySpace).reverse]
  rw [List.reverse_append]
  rfl

/-- A line of `m` reappears in `m ++ E` padded on the right by at most
the first line of the all-whitespace tail `E`. -/
theorem mem_lines_append_pad {m E L2 : List Char} (hL2 : L2 ∈ pyLines m)
    (hE : ∀ c ∈ E, isPySpace c = true) :
    ∃ W, (∀ c ∈ W, isPySpace c = true) ∧ L2 ++ W ∈ pyLines (m ++ E) := by
  have hsplit : L2 ∈ (pyLines m).dropLast ∨ L2 = (pyLines m).getLastD [] := by
    have he := @eq_dropLast_getLastD (pyLines m) [] (pyLines_ne_nil m)
    rcases List.mem_append.mp (he ▸ hL2) with h | h
    · exact Or.inl h
    · exact Or.inr (List.mem_singleton.mp h)
  rcases hsplit with h | h
  · refine ⟨[], fun c hc => absurd hc (List.not_mem_nil c), ?_⟩
    rw [List.append_nil, pyLines_append m E]
    exact List.mem_append.mpr (Or.inl h)
  · refine ⟨(pyLines E).headD [], fun c hc => ?_, ?_⟩
    · exact hE c (mem_of_mem_pyLines (headD_mem (pyLines_ne_nil E) []) c hc)
    · rw [pyLines_append m E, h]
      exact List.mem_append.mpr (Or.inr (List.mem_cons_self _ _))

/-- A line of `m` reappears in `D ++ m` padded on the left by at most
the last line of the all-whitespace head `D`. -/
theorem mem_lines_prepend_pad {D m L3 : List Char} (hL3 : L3 ∈ pyLines m)
    (hD : ∀ c ∈ D, isPySpace c = true) :
    ∃ I, (∀ c ∈ I, isPySpace c = true) ∧ I ++ L3 ∈ pyLines (D ++ m) := by
  have hsplit : L3 = (pyLines m).headD [] ∨ L3 ∈ (pyLines m).tail := by
    cases hx : pyLines m with
    | nil => exact absurd hx (pyLines_ne_nil m)
    | cons h t =>
      rw [hx] at hL3
      rcases List.mem_cons.mp hL3 with rfl | hmem
      · exact Or.inl rfl
      · exact Or.inr hmem
  rcases hsplit with h | h
  · refine ⟨(pyLines D).getLastD [], fun c hc =>
      hD c (mem_of_mem_pyLines (getLastD_mem (pyLines_ne_nil D) []) c hc), ?_⟩
    rw [pyLines_append D m, h]
    exact List.mem_append.mpr (Or.inr (List.mem_cons_self _ _))
  · refine ⟨[], fun c hc => absurd hc (List.not_mem_nil c), ?_⟩
    rw [List.nil_append, pyLines_append D m]
    exact List.mem_append.mpr (Or.inr (List.mem_cons_of_mem _ h))

/-- Every line of the stripped text sits inside a line of the original
text, surrounded only by whitespace. -/
theorem lines_of_strip {a L2 : List Char} (hL2 : L2 ∈ pyLines (pyStrip a)) :
    ∃ L, L ∈ pyLines a ∧ ∃ I W : List Char, L = I ++ L2 ++ W ∧
      (∀ c ∈ I, isPySpace c = true) ∧ (∀ c ∈ W, isPySpace c = true) := by
  obtain ⟨ha, hD, hE⟩ := pyStrip_decomp a
  obtain ⟨W, hW, hmemW⟩ := mem_lines_append_pad hL2 hE
  obtain ⟨I, hI, hmemI⟩ := mem_lines_prepend_pad hmemW hD
  refine ⟨I ++ (L2 ++ W), ?_, I, W, by rw [List.append_assoc], hI, hW⟩
  have ha2 : a = a.takeWhile isPySpace ++ (pyStrip a ++
      ((a.dropWhile isPySpace).reverse.takeWhile isPySpace).reverse) := by
    rw [← List.append_assoc]
    exact ha
  rw [ha2]
  exact hmemI

/-- Clean whitespace that is neither a newline nor `\r`, `\v`, `\f` is a
space or a tab. -/
theorem isSpaceTab_of_clean {c : Char} (h1 : isPySpace c = true) (h2 : cleanChar c = true)
    (h3 : ¬ c = '\n') : isSpaceTab c = true := by
  simp only [isPySpace, Bool.or_eq_true, decide_eq_true_eq] at h1
  rcases h1 with ((((h | h) | h) | h) | h) | h
  · subst h
    decide
  · subst h
    decide
  · exact absurd h h3
  · subst h
    exact absurd h2 (by decide)
  · subst h
    exact absurd h2 (by decide)
  · subst h
    exact absurd h2 (by decide)

/-- For clean text, `str.strip` cannot create a marker line: whitespace
padding inside a line is absorbed by the pattern. -/
theorem strip_safe {a : List Char} (hclean : ∀ c ∈ a, cleanChar c = true)
    (hsafe : AllLinesSafe a) : AllLinesSafe (pyStrip a) := by
  intro L2 hL2
  by_contra hcon
  rw [Bool.not_eq_false, isMarkerLine_spec] at hcon
  obtain ⟨cap, hcap⟩ := hcon
  obtain ⟨L, hLmem, I, W, hLeq, hI, hW⟩ := lines_of_strip hL2
  have hnl := pyLines_no_nl hLmem
  have hIst : ∀ c ∈ I, isSpaceTab c = true := by
    intro c hc
    have hcL : c ∈ L := by
      rw [hLeq]
      exact List.mem_append.mpr (Or.inl (List.mem_append.mpr (Or.inl hc)))
    refine isSpaceTab_of_clean (hI c hc) (hclean c (mem_of_mem_pyLines hLmem c hcL)) ?_
    intro he
    rw [he] at hcL
    exact hnl hcL
  have hmark : matchAt L = some (cap, []) := by
    rw [hLeq, List.append_assoc, matchAt_indent hIst]
    exact matchAt_extend_wsall hcap hW
  have hfalse := hsafe L hLmem
  rw [isMarkerLine_spec.mpr ⟨cap, hmark⟩] at hfalse
  cases hfalse

/-! ## C4: marker lines are boundaries only -/

/-- Counterexample to C4 as stated: with `"SUMMARY"` as the whole input
every section accumulates empty, so the zero-content fallback copies the
normalized text — the marker line included — into `resume`, where it
appears as body content. -/
theorem C4_counterexample :
    isMarkerLine "SUMMARY".data = true ∧
    (format_output "SUMMARY".data).resume = "SUMMARY".data ∧
    "SUMMARY".data ∈ pyLines (format_output "SUMMARY".data).resume := by decide

/-- C4 (amended).  For inputs whose normalized text uses only clean
whitespace (no `\r`, `\v`, `\f`, which defeat the pattern's `[ \t]*`
indentation class yet are removed by `str.strip`), and provided the
zero-content fallback does not fire, no line of any of the three
returned section values matches the marker pattern: marker lines act
only as section boundaries. -/
theorem C4_amended (raw : List Char) (hclean : cleanWs (strip_md raw) = true)
    (hnf : ¬ ((accOf raw).summary = [] ∧ (accOf raw).resume = [] ∧
      (accOf raw).cover_letter = [])) :
    (∀ L ∈ pyLines (format_output raw).summary, isMarkerLine L = false) ∧
    (∀ L ∈ pyLines (format_output raw).resume, isMarkerLine L = false) ∧
    (∀ L ∈ pyLines (format_output raw).cover_letter, isMarkerLine L = false) := by
  have hacc2 : acc2Of raw = accOf raw := by
    unfold acc2Of
    rw [if_neg hnf]
  have hcl : ∀ c ∈ strip_md raw, cleanChar c = true := by
    simp only [cleanWs, List.all_eq_true] at hclean
    exact hclean
  obtain ⟨g1, g2, g3⟩ := accOf_good raw
  have key : ∀ x : List Char, GoodAcc (strip_md raw) x →
      ∀ L ∈ pyLines (pyStrip x), isMarkerLine L = false := by
    intro x hg
    exact strip_safe (fun c hc => hcl c (hg.2.2 c hc)) hg.1
  rw [format_output_eq, hacc2]
  exact ⟨key _ g1, key _ g2, key _ g3⟩

/-- Witness for C4: on the three-section scenario input the hypotheses
hold and no returned section value contains a marker line. -/
theorem C4_amended_witness :
    cleanWs (strip_md
      "SUMMARY\nHi.\nRESUME\nJOHN DOE\n  - built an app\nCOVER LETTER\nDear team,".data)
      = true ∧
    ((∀ L ∈ pyLines (format_output
        "SUMMARY\nHi.\nRESUME\nJOHN DOE\n  - built an app\nCOVER LETTER\nDear team,".data).summary,
        isMarkerLine L = false) ∧
     (∀ L ∈ pyLines (format_output
        "SUMMARY\nHi.\nRESUME\nJOHN DOE\n  - built an app\nCOVER LETTER\nDear team,".data).resume,
        isMarkerLine L = false) ∧
     (∀ L ∈ pyLines (format_output
        "SUMMARY\nHi.\nRESUME\nJOHN DOE\n  - built an app\nCOVER LETTER\nDear team,".data).cover_letter,
        isMarkerLine L = false)) :=
  ⟨by decide, C4_amended
    "SUMMARY\nHi.\nRESUME\nJOHN DOE\n  - built an app\nCOVER LETTER\nDear team,".data
    (by decide) (by decide)⟩

/-! ## C8: body line classification -/

theorem hasUpperAZ_eq_any_isUpper (cs : List Char) : hasUpperAZ cs = cs.any Char.isUpper := by
  unfold hasUpperAZ
  congr 1

/-- On a line fixed by `upper`, an ASCII-letter test and the `[A-Z]`
test agree. -/
theorem any_isAlpha_iff_hasUpperAZ {raw : List Char} (h : raw = pyUpper raw) :
    (∃ c ∈ raw, c.isAlpha) ↔ hasUpperAZ raw = true := by
  rw [hasUpperAZ_eq_any_isUpper, List.any_eq_true]
  constructor
  · rintro ⟨c, hc, hca⟩
    refine ⟨c, hc, ?_⟩
    rw [← isAlpha_eq_isUpper_of_fixed (eq_map_fixed h c hc)]
    exact hca
  · rintro ⟨c, hc, hcu⟩
    refine ⟨c, hc, ?_⟩
    rw [isAlpha_eq_isUpper_of_fixed (eq_map_fixed h c hc)]
    exact hcu

/-- C8.  A nonblank line is a heading iff its trimmed form equals its
own uppercase transform, contains at least one letter, is at most 50
characters long, and does not start with a dash; it is a bullet iff its
trimmed form starts with `"- "`; otherwise it is a paragraph.  The
scenario lines classify as heading, bullet and paragraph respectively. -/
theorem C8_classification :
    (∀ line : List Char,
      (classifyLine line = .heading ↔
        (pyStrip line ≠ [] ∧ pyStrip line = pyUpper (pyStrip line) ∧
         (∃ c ∈ pyStrip line, c.isAlpha) ∧ (pyStrip line).length ≤ 50 ∧
         (pyStrip line).head? ≠ some '-')) ∧
      (pyStrip line ≠ [] →
        (classifyLine line = .bullet ↔
          (¬ classifyLine line = .heading ∧ "- ".data <+: pyStrip line))) ∧
      (pyStrip line ≠ [] →
        (classifyLine line = .paragraph ↔
          (¬ classifyLine line = .heading ∧ ¬ "- ".data <+: pyStrip line)))) ∧
    classifyLine "EDUCATION".data = .heading ∧
    classifyLine "  - built an app".data = .bullet ∧
    classifyLine "I build software.".data = .paragraph := by
  refine ⟨fun line => ?_, by decide, by decide, by decide⟩
  unfold classifyLine
  by_cases hempty : (pyStrip line).isEmpty
  · rw [if_pos hempty]
    rw [List.isEmpty_iff] at hempty
    refine ⟨by simp [hempty], fun hne => absurd hempty hne, fun hne => absurd hempty hne⟩
  · rw [if_neg hempty]
    rw [List.isEmpty_iff] at hempty
    by_cases hhead : (pyStrip line = pyUpper (pyStrip line) && hasUpperAZ (pyStrip line) &&
        decide ((pyStrip line).length ≤ 50) && !((pyStrip line).head? = some '-')) = true
    · rw [if_pos hhead]
      simp only [Bool.and_eq_true, Bool.not_eq_eq_eq_not, Bool.not_true, decide_eq_true_eq,
        decide_eq_false_iff_not] at hhead
      obtain ⟨⟨⟨hu, ha⟩, hlen⟩, hdash⟩ := hhead
      refine ⟨⟨fun _ => ⟨hempty, hu, (any_isAlpha_iff_hasUpperAZ hu).mpr ha, hlen, hdash⟩,
        fun _ => rfl⟩, fun _ => ?_, fun _ => ?_⟩
      · constructor
        · intro hcon
          exact absurd hcon (by simp)
        · rintro ⟨hcon, -⟩
          exact absurd rfl hcon
      · constructor
        · intro hcon
          exact absurd hcon (by simp)
        · rintro ⟨hcon, -⟩
          exact absurd rfl hcon
    · rw [if_neg hhead]
      have hnoth : ¬ (pyStrip line ≠ [] ∧ pyStrip line = pyUpper (pyStrip line) ∧
          (∃ c ∈ pyStrip line, c.isAlpha) ∧ (pyStrip line).length ≤ 50 ∧
          (pyStrip line).head? ≠ some '-') := by
        rintro ⟨-, hu, ha, hlen, hdash⟩
        apply hhead
        simp only [Bool.and_eq_true, Bool.not_eq_eq_eq_not, Bool.not_true, decide_eq_true_eq,
          decide_eq_false_iff_not]
        exact ⟨⟨⟨hu, (any_isAlpha_iff_hasUpperAZ hu).mp ha⟩, hlen⟩, hdash⟩
      by_cases hpre : "- ".data.isPrefixOf (pyStrip line)
      · rw [if_pos hpre]
        rw [List.isPrefixOf_iff_prefix] at hpre
        exact ⟨⟨fun hcon => absurd hcon (by simp), fun hcon => absurd hcon hnoth⟩,
          fun _ => ⟨fun _ => ⟨by simp, hpre⟩, fun _ => rfl⟩,
          fun _ => ⟨fun hcon => absurd hcon (by simp),
            fun hcon => absurd hpre hcon.2⟩⟩
      · rw [if_neg hpre]
        rw [List.isPrefixOf_iff_prefix] at hpre
        exact ⟨⟨fun hcon => absurd hcon (by simp), fun hcon => absurd hcon hnoth⟩,
          fun _ => ⟨fun hcon => absurd hcon (by simp), fun hcon => absurd hcon.2 hpre⟩,
          fun _ => ⟨fun _ => ⟨by simp, hpre⟩, fun _ => rfl⟩⟩

/-- Witness for C8: the bullet and paragraph characterisations applied
at the two nonblank scenario lines. -/
theorem C8_classification_witness :
    (classifyLine "  - built an app".data = .bullet ↔
      (¬ classifyLine "  - built an app".data = .heading ∧
        "- ".data <+: pyStrip "  - built an app".data)) ∧
    (classifyLine "I build software.".data = .paragraph ↔
      (¬ classifyLine "I build software.".data = .heading ∧
        ¬ "- ".data <+: pyStrip "I build software.".data)) :=
  ⟨(C8_classification.1 "  - built an app".data).2.1 (by decide),
   (C8_classification.1 "I build software.".data).2.2 (by decide)⟩


/-! ## C10: duplicate markers accumulate by appending -/

/-- The claim-side reading of the accumulation loop: the list of body
segments assigned to key `k`, in input order (a marker part switches
the current key, a body part is listed under the current key, parts
before the first marker belong to no key). -/
def segmentsOf (k : SKey) : List (List Char) → Option SKey → List (List Char)
  | [], _ => []
  | p :: ps, cur =>
    if upperStrip p = "SUMMARY".data then segmentsOf k ps (some .summary)
    else if upperStrip p = "RESUME".data then segmentsOf k ps (some .resume)
    else if upperStrip p = "COVER LETTER".data then segmentsOf k ps (some .cover)
    else
      match cur with
      | some j => if j = k then p :: segmentsOf k ps cur else segmentsOf k ps cur
      | none => segmentsOf k ps cur

/-- The fold only ever appends: each accumulated value is the incoming
value followed by the concatenation, in input order, of the body
segments assigned to its key. -/
theorem foldParts_segments : ∀ (ps : List (List Char)) (cur : Option SKey) (s : Sections),
    (foldParts ps cur s).summary = s.summary ++ (segmentsOf .summary ps cur).flatten ∧
    (foldParts ps cur s).resume = s.resume ++ (segmentsOf .resume ps cur).flatten ∧
    (foldParts ps cur s).cover_letter = s.cover_letter ++ (segmentsOf .cover ps cur).flatten
  | [], cur, s => by
    simp [foldParts, segmentsOf]
  | p :: ps, cur, s => by
    unfold foldParts segmentsOf
    split_ifs with h1 h2 h3
    · exact foldParts_segments ps (some .summary) s
    · exact foldParts_segments ps (some .resume) s
    · exact foldParts_segments ps (some .cover) s
    · cases cur with
      | none => exact foldParts_segments ps none s
      | some j =>
        cases j with
        | summary =>
          obtain ⟨ih1, ih2, ih3⟩ := foldParts_segments ps (some .summary)
            ⟨s.summary ++ p, s.resume, s.cover_letter⟩
          exact ⟨by simp [ih1, List.append_assoc], by simp [ih2], by simp [ih3]⟩
        | resume =>
          obtain ⟨ih1, ih2, ih3⟩ := foldParts_segments ps (some .resume)
            ⟨s.summary, s.resume ++ p, s.cover_letter⟩
          exact ⟨by simp [ih1], by simp [ih2, List.append_assoc], by simp [ih3]⟩
        | cover =>
          obtain ⟨ih1, ih2, ih3⟩ := foldParts_segments ps (some .cover)
            ⟨s.summary, s.resume, s.cover_letter ++ p⟩
          exact ⟨by simp [ih1], by simp [ih2], by simp [ih3, List.append_assoc]⟩

/-- C10.  Each accumulated section is the concatenation, in input
order, of the body segments that follow every occurrence of its marker:
a repeated marker token appends to, never overwrites, the earlier
content of its key.  On a concrete input with two `SUMMARY` markers the
two summary segments are concatenated. -/
theorem C10_duplicate_markers :
    (∀ raw : List Char,
      (accOf raw).summary =
        (segmentsOf .summary (pySplitMarkers (strip_md raw)) none).flatten ∧
      (accOf raw).resume =
        (segmentsOf .resume (pySplitMarkers (strip_md raw)) none).flatten ∧
      (accOf raw).cover_letter =
        (segmentsOf .cover (pySplitMarkers (strip_md raw)) none).flatten) ∧
    format_output "SUMMARY\nA\nRESUME\nB\nSUMMARY\nC".data =
      ⟨"A\n\nC".data, "B".data, []⟩ := by
  refine ⟨fun raw => ?_, by decide⟩
  obtain ⟨h1, h2, h3⟩ := foldParts_segments (pySplitMarkers (strip_md raw)) none ⟨[], [], []⟩
  exact ⟨by simpa using h1, by simpa using h2, by simpa using h3⟩

end ResumeBuilder
